import Mathlib

/-!
Verification development for the Zenith chess engine (src/engine.rs, src/main.rs).

The engine is written against the external pleco board library.  Following the
specification's capability interface (spec §6), a position is modelled as a
`Node` that packages the answers the board library gives at that position:
side to move, ply counter, zobrist hash, check/checkmate/stalemate predicates,
per-square piece lookup, the legality and static-exchange predicates, the
generated pseudo-legal move list (each move paired with the position reached
by applying it), and the position reached by a null move.  Machine integers
are modelled as `Int`/`Nat`; the numerical claim (C10) proves the arithmetic
of `evaluate_board` stays far inside the `i16`/`i32` ranges, justifying this.

Engine functions are translated line by line from src/engine.rs; each
definition's doc comment cites the source lines it embeds.
-/

/-- Side to move (pleco `Player`). -/
inductive Player where
  | white
  | black
deriving DecidableEq, Fintype

/-- Piece kinds (pleco `PieceType`), including the `None` and `All` variants
that the engine's `match` arms mention. -/
inductive PieceType where
  | noPiece
  | p
  | n
  | b
  | r
  | q
  | k
  | all
deriving DecidableEq, Fintype

/-- Contents of a square: empty, or a player's piece (pleco `Piece`). -/
abbrev Piece := Option (Player × PieceType)

/-- Model of pleco `Piece::player`: the owner of the piece, if any. -/
def pieceOwner (pc : Piece) : Option Player := pc.map Prod.fst

/-- Model of pleco `Piece::type_of`: the piece type, `noPiece` for an empty square. -/
def pieceTypeOf (pc : Piece) : PieceType :=
  match pc with
  | Option.none => PieceType.noPiece
  | Option.some (_, pt) => pt

/-- Model of pleco `BitMove`: the 16-bit move word `id` together with the
fields the engine reads off it (source, destination, and the flag bits).
pleco derives all of these from the bits; the model carries them explicitly.
Equality is field-wise, matching `BitMove`'s bit equality. -/
structure BMove where
  id : Nat
  src : Fin 64
  dest : Fin 64
  isCapture : Bool
  isKingCastle : Bool
  isQueenCastle : Bool
  isEp : Bool
deriving DecidableEq

/-- Model of `BitMove::is_null` (the move word is all zero bits). -/
def BMove.isNull (m : BMove) : Bool := m.id == 0

/-- Model of `BitMove::null()`. -/
def nullMove : BMove :=
  { id := 0, src := 0, dest := 0, isCapture := false,
    isKingCastle := false, isQueenCastle := false, isEp := false }

/-- A chess position together with the board library's answers at it
(spec §6 capability interface).  `edges` pairs each generated pseudo-legal
move with the position obtained by applying it; `nullChild` is the position
after a null move (the library only guarantees it when not in check). -/
inductive Node : Type where
  | mk :
    (hash : Nat) →
    (turn : Player) →
    (ply : Nat) →
    (inCheck : Bool) →
    (isCheckmate : Bool) →
    (isStalemate : Bool) →
    (pieceAt : Fin 64 → Piece) →
    (legalMove : BMove → Bool) →
    (seeGeZero : BMove → Bool) →
    (edges : List (BMove × Node)) →
    (nullChild : Option Node) → Node

/-- Zobrist hash of the position (`board.zobrist()`). -/
def Node.hash : Node → Nat
  | .mk h _ _ _ _ _ _ _ _ _ _ => h

/-- Side to move (`board.turn()`). -/
def Node.turn : Node → Player
  | .mk _ t _ _ _ _ _ _ _ _ _ => t

/-- Ply counter (`board.ply()`). -/
def Node.ply : Node → Nat
  | .mk _ _ pl _ _ _ _ _ _ _ _ => pl

/-- Check predicate (`board.in_check()`). -/
def Node.inCheck : Node → Bool
  | .mk _ _ _ c _ _ _ _ _ _ _ => c

/-- Checkmate predicate (`board.checkmate()`). -/
def Node.isCheckmate : Node → Bool
  | .mk _ _ _ _ cm _ _ _ _ _ _ => cm

/-- Stalemate predicate (`board.stalemate()`). -/
def Node.isStalemate : Node → Bool
  | .mk _ _ _ _ _ sm _ _ _ _ _ => sm

/-- Per-square piece lookup (`board.piece_at_sq(sq)`). -/
def Node.pieceAt : Node → Fin 64 → Piece
  | .mk _ _ _ _ _ _ pa _ _ _ _ => pa

/-- Legality predicate over candidate moves (`board.legal_move(m)`). -/
def Node.legalMove : Node → BMove → Bool
  | .mk _ _ _ _ _ _ _ lm _ _ _ => lm

/-- Static-exchange predicate (`board.see_ge(m, 0)`). -/
def Node.seeGeZero : Node → BMove → Bool
  | .mk _ _ _ _ _ _ _ _ sg _ _ => sg

/-- Generated pseudo-legal moves, each paired with the resulting position
(`board.generate_pseudolegal_moves()`, and `board.apply_move(m)`). -/
def Node.edges : Node → List (BMove × Node)
  | .mk _ _ _ _ _ _ _ _ _ es _ => es

/-- Position after a null move (`board.apply_null_move()`). -/
def Node.nullChild : Node → Option Node
  | .mk _ _ _ _ _ _ _ _ _ _ nc => nc

/-- Model of pleco `Board::moved_piece(m)`: the piece standing on the move's
source square. -/
def Node.movedPiece (nd : Node) (m : BMove) : Piece := nd.pieceAt m.src

/-- Model of pleco `Board::captured_piece(m)`: a pawn for en passant,
otherwise the piece type on the destination square. -/
def Node.capturedPiece (nd : Node) (m : BMove) : PieceType :=
  if m.isEp then PieceType.p else pieceTypeOf (nd.pieceAt m.dest)

/-- Model of pleco `Board::is_capture(m)`: the capture flag of the move word. -/
def Node.isCaptureMv (_nd : Node) (m : BMove) : Bool := m.isCapture

/-- TTEntry (engine.rs lines 8-13): score, searched depth, and the bound
flag whose code comment reads `0: exact, 1: lower, 2: upper`. -/
structure TTEntry where
  score : Int
  depth : Nat
  flag : Nat
deriving DecidableEq

/-- Flag value for an exact entry (engine.rs line 12: `0: exact`). -/
def FLAG_EXACT : Nat := 0

/-- Flag value for a lower-bound entry (engine.rs line 12: `1: lower`). -/
def FLAG_LOWER : Nat := 1

/-- Flag value for an upper-bound entry (engine.rs line 12: `2: upper`). -/
def FLAG_UPPER : Nat := 2

/-- The transposition table, a map from 64-bit hash to at most one entry
(engine.rs lines 15-17, `HashMap<u64, TTEntry>`). -/
abbrev TT := Nat → Option TTEntry

namespace CustomTT

/-- Model of `CustomTT::new()` (engine.rs lines 20-22). -/
def new : TT := fun _ => Option.none

/-- Model of `CustomTT::probe` (engine.rs lines 24-39): a stored entry is
usable only if its depth is at least the requested depth; an exact entry is
always usable, a lower-bound entry only when its score is at least beta, an
upper-bound entry only when its score is at most alpha. -/
def probe (tt : TT) (hash : Nat) (depth : Nat) (alpha beta : Int) : Option Int :=
  match tt hash with
  | Option.some entry =>
    if depth ≤ entry.depth then
      match entry.flag with
      | 0 => Option.some entry.score
      | 1 => if beta ≤ entry.score then Option.some entry.score else Option.none
      | 2 => if entry.score ≤ alpha then Option.some entry.score else Option.none
      | _ => Option.none
    else Option.none
  | Option.none => Option.none

/-- Model of `CustomTT::store` (engine.rs lines 41-43): unconditional
overwrite of the entry at `hash`. -/
def store (tt : TT) (hash : Nat) (depth : Nat) (score : Int) (flag : Nat) : TT :=
  fun h => if h = hash then Option.some { score := score, depth := depth, flag := flag } else tt h

end CustomTT

/-- INFINITY constant (engine.rs line 5). -/
def INFINITY : Int := 1000000

/-- MAX_PLY constant (engine.rs line 6). -/
def MAX_PLY : Nat := 64

/-- PSQT_PAWN_MG (engine.rs lines 216-225). -/
def PSQT_PAWN_MG : List Int :=
  [0, 0, 0, 0, 0, 0, 0, 0,
   50, 50, 50, 50, 50, 50, 50, 50,
   10, 10, 20, 30, 30, 20, 10, 10,
   5, 5, 10, 25, 25, 10, 5, 5,
   0, 0, 0, 20, 20, 0, 0, 0,
   5, -5, -10, 0, 0, -10, -5, 5,
   5, 10, 10, -20, -20, 10, 10, 5,
   0, 0, 0, 0, 0, 0, 0, 0]

/-- PSQT_KNIGHT_MG (engine.rs lines 227-236). -/
def PSQT_KNIGHT_MG : List Int :=
  [-50, -40, -30, -30, -30, -30, -40, -50,
   -40, -20, 0, 5, 5, 0, -20, -40,
   -30, 5, 10, 15, 15, 10, 5, -30,
   -30, 0, 15, 20, 20, 15, 0, -30,
   -30, 5, 15, 20, 20, 15, 5, -30,
   -30, 0, 10, 15, 15, 10, 0, -30,
   -40, -20, 0, 0, 0, 0, -20, -40,
   -50, -40, -30, -30, -30, -30, -40, -50]

/-- PSQT_BISHOP_MG (engine.rs lines 238-247). -/
def PSQT_BISHOP_MG : List Int :=
  [-20, -10, -10, -10, -10, -10, -10, -20,
   -10, 5, 0, 0, 0, 0, 5, -10,
   -10, 10, 10, 10, 10, 10, 10, -10,
   -10, 0, 10, 10, 10, 10, 0, -10,
   -10, 5, 5, 10, 10, 5, 5, -10,
   -10, 0, 5, 10, 10, 5, 0, -10,
   -10, 0, 0, 0, 0, 0, 0, -10,
   -20, -10, -10, -10, -10, -10, -10, -20]

/-- PSQT_ROOK_MG (engine.rs lines 249-258). -/
def PSQT_ROOK_MG : List Int :=
  [0, 0, 0, 5, 5, 0, 0, 0,
   -5, 0, 0, 0, 0, 0, 0, -5,
   -5, 0, 0, 0, 0, 0, 0, -5,
   -5, 0, 0, 0, 0, 0, 0, -5,
   -5, 0, 0, 0, 0, 0, 0, -5,
   -5, 0, 0, 0, 0, 0, 0, -5,
   5, 10, 10, 10, 10, 10, 10, 5,
   0, 0, 0, 0, 0, 0, 0, 0]

/-- PSQT_QUEEN_MG (engine.rs lines 260-269). -/
def PSQT_QUEEN_MG : List Int :=
  [-20, -10, -10, -5, -5, -10, -10, -20,
   -10, 0, 5, 0, 0, 0, 0, -10,
   -10, 5, 5, 5, 5, 5, 0, -10,
   0, 0, 5, 5, 5, 5, 0, -5,
   -5, 0, 5, 5, 5, 5, 0, -5,
   -10, 0, 5, 5, 5, 5, 0, -10,
   -10, 0, 0, 0, 0, 0, 0, -10,
   -20, -10, -10, -5, -5, -10, -10, -20]

/-- PSQT_KING_MG (engine.rs lines 271-280). -/
def PSQT_KING_MG : List Int :=
  [-30, -40, -40, -50, -50, -40, -40, -30,
   -30, -40, -40, -50, -50, -40, -40, -30,
   -30, -40, -40, -50, -50, -40, -40, -30,
   -30, -40, -40, -50, -50, -40, -40, -30,
   -20, -30, -30, -40, -40, -30, -30, -20,
   -10, -20, -20, -20, -20, -20, -20, -10,
   20, 20, 0, 0, 0, 0, 20, 20,
   20, 30, 10, 0, 0, 10, 30, 20]

/-- Array indexing of a PSQT table (the engine indexes with a usize that is
always below 64; out-of-range defaults to 0 and is never exercised). -/
def psqtAt (t : List Int) (i : Nat) : Int := t.getD i 0

/-- The material value table that appears verbatim three times in the
engine: in `evaluate_board` (lines 185-193) and as the MVV and LVA tables of
`score_move` (lines 290-298 and 299-307).  All three list pawn 100,
knight 320, bishop 330, rook 500, queen 900, king 20000, anything else 0. -/
def pieceValue : PieceType → Int
  | PieceType.p => 100
  | PieceType.n => 320
  | PieceType.b => 330
  | PieceType.r => 500
  | PieceType.q => 900
  | PieceType.k => 20000
  | _ => 0

/-- The PSQT lookup of `evaluate_board` (engine.rs lines 195-203), with the
catch-all arm giving 0. -/
def psqtValue (pt : PieceType) (idx : Nat) : Int :=
  match pt with
  | PieceType.p => psqtAt PSQT_PAWN_MG idx
  | PieceType.n => psqtAt PSQT_KNIGHT_MG idx
  | PieceType.b => psqtAt PSQT_BISHOP_MG idx
  | PieceType.r => psqtAt PSQT_ROOK_MG idx
  | PieceType.q => psqtAt PSQT_QUEEN_MG idx
  | PieceType.k => psqtAt PSQT_KING_MG idx
  | _ => 0

/-- One iteration of the square loop of `evaluate_board` (engine.rs lines
180-211): skip empty squares; otherwise add (White) or subtract (Black) the
material value plus the PSQT value at the square index, mirrored (63 - sq)
for Black. -/
def evalStep (nd : Node) (score : Int) (i : Fin 64) : Int :=
  match pieceOwner (nd.pieceAt i) with
  | Option.none => score
  | Option.some pl =>
    let pt := pieceTypeOf (nd.pieceAt i)
    let material_value := pieceValue pt
    let psqt_index := if pl = Player.white then (i : Nat) else 63 - (i : Nat)
    let psqt_value := psqtValue pt psqt_index
    let total_value := material_value + psqt_value
    if pl = Player.white then score + total_value else score - total_value

/-- Model of `evaluate_board` (engine.rs lines 178-213): fold the square
loop over all 64 squares, then negate the total when Black is to move. -/
def evaluate_board (nd : Node) : Int :=
  let score := (List.finRange 64).foldl (evalStep nd) 0
  if nd.turn = Player.white then score else -score

/-- Killer table (engine.rs line 282): two moves per ply slot, 64 slots. -/
abbrev Killers := Fin 64 → BMove × BMove

/-- History table (engine.rs line 283): piece type (6) by destination square (64). -/
abbrev HistTable := Fin 6 → Fin 64 → Int

/-- The mutable search state threaded through the engine: the transposition
table passed by reference, and the process-global KILLERS and HISTORY arrays
(engine.rs lines 282-283). -/
structure SearchSt where
  tt : TT
  killers : Killers
  history : HistTable

/-- The piece-type index used for the HISTORY table (engine.rs lines
312-320 and 433-441, identical matches): P 0, N 1, B 2, R 3, Q 4, K 5,
anything else 0. -/
def ptIdx : PieceType → Fin 6
  | PieceType.p => 0
  | PieceType.n => 1
  | PieceType.b => 2
  | PieceType.r => 3
  | PieceType.q => 4
  | PieceType.k => 5
  | _ => 0

/-- Model of `score_move` (engine.rs lines 285-324): MVV-LVA for captures,
9000 for a non-capture equal to a killer stored at ply index 0, otherwise
the history score of (moved piece type, destination) plus 1000. -/
def score_move (m : BMove) (nd : Node) (s : SearchSt) : Int :=
  if nd.isCaptureMv m then
    let victim_pt := nd.capturedPiece m
    let attacker_pt := pieceTypeOf (nd.movedPiece m)
    let mvv := pieceValue victim_pt
    let lva := pieceValue attacker_pt
    10000 + mvv * 100 - lva
  else if m = (s.killers 0).1 ∨ m = (s.killers 0).2 then 9000
  else s.history (ptIdx (pieceTypeOf (nd.movedPiece m))) m.dest + 1000

/-- Model of `order_moves` (engine.rs lines 326-328).  Rust's
`sort_by_key(Reverse(score))` is a stable descending sort by `score_move`;
a stable sort's output is uniquely determined by the key order, so the
(stable) insertion sort with the reflexive descending relation produces
exactly the same list. -/
def order_moves (ms : List (BMove × Node)) (nd : Node) (s : SearchSt) : List (BMove × Node) :=
  ms.insertionSort (fun a b => score_move b.1 nd s ≤ score_move a.1 nd s)

/-- The killer-slot index used on a beta cutoff: `board.ply() as usize % MAX_PLY`
(engine.rs lines 427 and 460). -/
def killerIndex (ply : Nat) : Fin 64 :=
  ⟨ply % MAX_PLY, Nat.mod_lt _ (by unfold MAX_PLY; omega)⟩

/-- The killer update performed on a beta cutoff (engine.rs lines 428-432
and 461-465): write the move into slot 0 of the indexed ply entry if that
slot holds the null move, else into slot 1 if that slot holds the null move,
else leave the table unchanged. -/
def updateKillers (ks : Killers) (ply : Nat) (m : BMove) : Killers :=
  let i := killerIndex ply
  if (ks i).1.isNull then
    fun j => if j = i then (m, (ks i).2) else ks j
  else if (ks i).2.isNull then
    fun j => if j = i then ((ks i).1, m) else ks j
  else ks

/-- The history update performed on a beta cutoff (engine.rs lines 433-443
and 466-476): add depth squared to the (moved piece type, destination) cell. -/
def updateHistory (h : HistTable) (pt : PieceType) (dest : Fin 64) (depth : Nat) : HistTable :=
  fun i j =>
    if i = ptIdx pt ∧ j = dest then h i j + (depth : Int) * (depth : Int) else h i j

/-- Model of `file_char` (engine.rs lines 47-49). -/
def file_char (file_idx : Nat) : Char := Char.ofNat (Char.toNat 'a' + file_idx)

/-- Model of `rank_char` (engine.rs lines 51-53). -/
def rank_char (rank_idx : Nat) : Char := Char.ofNat (Char.toNat '1' + rank_idx)

/-- Model of `piece_char` (engine.rs lines 55-65). -/
def piece_char : PieceType → Char
  | PieceType.p => ' '
  | PieceType.n => 'N'
  | PieceType.b => 'B'
  | PieceType.r => 'R'
  | PieceType.q => 'Q'
  | PieceType.k => 'K'
  | PieceType.noPiece => '?'
  | PieceType.all => '?'

/-- Model of `pleco::core::file_idx_of_sq` (the square's low three bits). -/
def fileIdxOfSq (sq : Fin 64) : Nat := (sq : Nat) % 8

/-- Model of `pleco::core::rank_idx_of_sq` (the square's high three bits). -/
def rankIdxOfSq (sq : Fin 64) : Nat := (sq : Nat) / 8

/-- The disambiguation count of `bitmove_to_san` (engine.rs lines 93-100):
the number of other currently legal moves with the same destination square
and the same moved piece type. -/
def sanCountSame (nd : Node) (mv : BMove) : Nat :=
  (nd.edges.filter (fun other =>
    nd.legalMove other.1 && decide (other.1.dest = mv.dest) &&
    decide (pieceTypeOf (nd.movedPiece other.1) = pieceTypeOf (nd.movedPiece mv)) &&
    decide (other.1 ≠ mv))).length

/-- The piece symbol, disambiguation and capture part of the SAN text
(engine.rs lines 76-114): the piece letter unless it is the pawn blank,
the source file letter when other legal moves share destination and piece
type, and for captures the source file letter (pawns only) followed by the
capture mark. -/
def sanPrefix (nd : Node) (mv : BMove) : List Char :=
  let moved_pt := pieceTypeOf (nd.movedPiece mv)
  let pc := piece_char moved_pt
  let san : List Char := if pc ≠ ' ' then [] ++ [pc] else []
  let san := san ++ (if sanCountSame nd mv > 0 then [file_char (fileIdxOfSq mv.src)] else [])
  if mv.isCapture then
    (if moved_pt = PieceType.p then san ++ [file_char (fileIdxOfSq mv.src)] else san) ++ ['x']
  else san

/-- Model of `bitmove_to_san` (engine.rs lines 67-141).  Rust `String`s are
modelled as `List Char` and each `push` is an append.  The empty string is
returned for the null move; castling short-circuits to the literal notations
(the piece letter pushed before the castling test on lines 79-82 is
discarded by those early returns, so it is folded into `sanPrefix` here);
otherwise the prefix is followed by the destination file and rank letters,
the unconditional queen promotion mark when a pawn reaches the last rank,
and the check and checkmate suffixes read off the position the move leads
to, which stands for the `shallow_clone` plus `apply_move` of the source.
The move is passed together with that position (the edge from
`Node.edges`). -/
def bitmove_to_san (nd : Node) (e : BMove × Node) : List Char :=
  if e.1.isNull then []
  else if e.1.isKingCastle then String.toList "O-O"
  else if e.1.isQueenCastle then String.toList "O-O-O"
  else
    let mv := e.1
    let moved_pt := pieceTypeOf (nd.movedPiece mv)
    let san := sanPrefix nd mv ++
      [file_char (fileIdxOfSq mv.dest), rank_char (rankIdxOfSq mv.dest)]
    let last_rank_idx : Nat := if nd.turn = Player.white then 7 else 0
    let san :=
      if moved_pt = PieceType.p ∧ rankIdxOfSq mv.dest = last_rank_idx then san ++ ['=', 'Q']
      else san
    let san := if e.2.inCheck then san ++ ['+'] else san
    if e.2.isCheckmate then san ++ ['#'] else san

/-- Rust `str::trim`: strip whitespace from both ends. -/
def trimChars (s : List Char) : List Char :=
  ((s.dropWhile Char.isWhitespace).reverse.dropWhile Char.isWhitespace).reverse

/-- Rust `str::to_lowercase` on the ASCII alphabet the codec uses. -/
def toLowerChars (s : List Char) : List Char := s.map Char.toLower

/-- Rust `trim_end_matches` with the predicate of engine.rs line 145:
strip trailing plus and hash characters. -/
def stripCheckChars (s : List Char) : List Char :=
  (s.reverse.dropWhile (fun c => c == '+' || c == '#')).reverse

/-- The error text of engine.rs line 174. -/
def noMatchMsg (san : List Char) : List Char :=
  String.toList "No matching move for SAN: " ++ san

/-- Model of `san_to_bitmove` (engine.rs lines 143-175): normalize (trim,
lowercase, strip trailing check marks), try the castling literals, then
return the first legal move whose lowercased encoding equals the normalized
input, else the no-match error carrying the original text.  The source scans
`board.generate_moves()` re-checking `legal_move`; the model scans the
pseudo-legal edges with the same `legal_move` check, the same filtered
sequence. -/
def san_to_bitmove (nd : Node) (san : List Char) : Except (List Char) BMove :=
  let lowered := toLowerChars (trimChars san)
  let clean_san := stripCheckChars lowered
  let castleHit : Option BMove :=
    if clean_san = String.toList "o-o" then
      (nd.edges.find? (fun mv => nd.legalMove mv.1 && mv.1.isKingCastle)).map Prod.fst
    else if clean_san = String.toList "o-o-o" then
      (nd.edges.find? (fun mv => nd.legalMove mv.1 && mv.1.isQueenCastle)).map Prod.fst
    else Option.none
  match castleHit with
  | Option.some mv => Except.ok mv
  | Option.none =>
    match nd.edges.find? (fun mv =>
        nd.legalMove mv.1 && toLowerChars (bitmove_to_san nd mv) == clean_san) with
    | Option.some mv => Except.ok mv.1
    | Option.none => Except.error (noMatchMsg san)

/-- The board as the search mutates it: the current position plus the undo
stack pleco keeps internally; `apply_move` pushes, `undo_move` pops. -/
structure BoardSt where
  cur : Node
  stack : List Node

/-- Model of `board.apply_move(m)` for a move taken from the generated list:
push the current position and switch to the position the move leads to. -/
def applyMove (b : BoardSt) (child : Node) : BoardSt :=
  { cur := child, stack := b.cur :: b.stack }

/-- Model of `board.undo_move()`: pop the last pushed position. -/
def undoMove (b : BoardSt) : BoardSt :=
  match b.stack with
  | [] => b
  | prev :: rest => { cur := prev, stack := rest }

/-- Model of `board.apply_null_move()`: push the current position and switch
to the library's null-move position (defaulting to the current position if
the library gives none; the engine only calls this when not in check, where
the library always answers). -/
def applyNullMove (b : BoardSt) : BoardSt :=
  { cur := b.cur.nullChild.getD b.cur, stack := b.cur :: b.stack }

/-- Model of `board.undo_null_move()`: pop, exactly like `undo_move`. -/
def undoNullMove (b : BoardSt) : BoardSt := undoMove b

/-- A left fold that can stop early: the step returns the new state and a
flag that is true when the Rust loop executes `break` (or `return`). -/
def foldBreak (f : σ → α → σ × Bool) : σ → List α → σ
  | st, [] => st
  | st, x :: xs =>
    let r := f st x
    if r.2 then r.1 else foldBreak f r.1 xs

/-- The capture list of `quiescence` (engine.rs lines 501-507): pseudo-legal
moves filtered to legal captures, then ordered by `order_moves`. -/
def qCaptures (nd : Node) (s : SearchSt) : List (BMove × Node) :=
  order_moves (nd.edges.filter (fun e => nd.isCaptureMv e.1 && nd.legalMove e.1)) nd s

/-- The loop state of the capture loop of `quiescence`: the running alpha,
the (dead) running score of line 522, the board, the shared search state,
and the early-return value when the loop exits through line 517. -/
structure QSt where
  alpha : Int
  score : Int
  b : BoardSt
  s : SearchSt
  ret : Option Int

/-- Model of `quiescence` (engine.rs lines 487-526): probe at depth 0;
stand-pat cutoff returning beta; raise alpha to the stand-pat; then for each
ordered legal capture passing `see_ge(m, 0)`, recurse in negamax form with
the negated window; a result at or above beta stores beta with flag 2 and
returns beta at once; otherwise alpha and the running score are raised.
After the loop the final alpha is stored as exact and returned. -/
def quiescence (b : BoardSt) (alpha beta : Int) (s : SearchSt) : Int × BoardSt × SearchSt :=
  let nd := b.cur
  let hash := nd.hash
  match CustomTT.probe s.tt hash 0 alpha beta with
  | Option.some score => (score, b, s)
  | Option.none =>
    let stand_pat := evaluate_board nd
    if beta ≤ stand_pat then (beta, b, s)
    else
      let alpha1 := if alpha < stand_pat then stand_pat else alpha
      let final := foldBreak (fun (st : QSt) (ea : {e // e ∈ qCaptures b.cur s}) =>
          let e := ea.1
          if ¬ (st.b.cur.seeGeZero e.1 = true) then (st, false)
          else
            let b1 := applyMove st.b e.2
            let q := quiescence b1 (-beta) (-st.alpha) st.s
            let eval := -q.1
            let b2 := undoMove q.2.1
            let s1 := q.2.2
            if beta ≤ eval then
              ({ st with
                  b := b2,
                  s := { s1 with tt := CustomTT.store s1.tt hash 0 beta 2 },
                  ret := Option.some beta }, true)
            else
              let alpha2 := if st.alpha < eval then eval else st.alpha
              let score2 := if st.score < eval then eval else st.score
              ({ alpha := alpha2, score := score2, b := b2, s := s1, ret := Option.none }, false))
        { alpha := alpha1, score := stand_pat, b := b, s := s, ret := Option.none }
        (qCaptures b.cur s).attach
      match final.ret with
      | Option.some v => (v, final.b, final.s)
      | Option.none =>
        (final.alpha, final.b,
         { final.s with tt := CustomTT.store final.s.tt hash 0 final.alpha 0 })
termination_by sizeOf b.cur
decreasing_by
  simp only [applyMove]
  have h1 : ea.1 ∈ (b.cur).edges := by
    have h0 := ea.2
    unfold qCaptures order_moves at h0
    exact (List.mem_filter.1 ((List.mem_insertionSort _).1 h0)).1
  have h3 : sizeOf ea.1 < sizeOf (b.cur).edges := List.sizeOf_lt_of_mem h1
  have h2 : sizeOf ea.1.2 < sizeOf ea.1 := by
    obtain ⟨⟨mv, c⟩, hmem⟩ := ea
    simp only [Prod.mk.sizeOf_spec]
    omega
  have h4 : sizeOf (b.cur).edges < sizeOf b.cur := by
    cases hb : b.cur with
    | mk h t pl ic cm sm pa lm sg es nc =>
      simp only [Node.edges, Node.mk.sizeOf_spec]
      omega
  omega

/-- The legal move list of `minimax` and `get_best_move` (engine.rs lines
335-339 and 406-410): pseudo-legal moves filtered by `legal_move`. -/
def legalEdges (nd : Node) : List (BMove × Node) :=
  nd.edges.filter (fun e => nd.legalMove e.1)

/-- The loop state of the move loops of `minimax`: the running score, the
tightening bound (alpha on the maximizing side, beta on the minimizing
side), the bound flag for the final store, the board and the search state. -/
structure MMSt where
  score : Int
  bound : Int
  flag : Nat
  b : BoardSt
  s : SearchSt

/-- Model of `minimax` (engine.rs lines 372-485): probe; checkmate scored
-INFINITY when White is to move and INFINITY otherwise, stored exact;
stalemate scored 0, stored exact; depth 0 delegates to `quiescence`, storing
its result at depth 0 as exact; null-move pruning only when depth is at
least 3, the search is minimizing, alpha is below beta and the side to move
is not in check, recursing at depth minus 3 with the negated window and
negated role, storing a result at or above beta at the current depth with
flag 2 and returning it; otherwise the ordered legal moves are expanded in
classic minimax form, a beta cutoff setting flag 1 (maximizing) or flag 2
(minimizing) and recording the causing move in the killer and history
tables; the final score is stored at the current depth with the determined
flag. -/
def minimax (depth : Nat) (b : BoardSt) (alpha beta : Int) (maximizing : Bool)
    (s : SearchSt) : Int × BoardSt × SearchSt :=
  let nd := b.cur
  let hash := nd.hash
  match CustomTT.probe s.tt hash depth alpha beta with
  | Option.some score => (score, b, s)
  | Option.none =>
    if nd.isCheckmate then
      let score := if nd.turn = Player.white then -INFINITY else INFINITY
      (score, b, { s with tt := CustomTT.store s.tt hash depth score 0 })
    else if nd.isStalemate then
      (0, b, { s with tt := CustomTT.store s.tt hash depth 0 0 })
    else if hd : depth = 0 then
      let q := quiescence b alpha beta s
      (q.1, q.2.1, { q.2.2 with tt := CustomTT.store q.2.2.tt hash 0 q.1 0 })
    else
      let nullTry : (Int × BoardSt × SearchSt) ⊕ (BoardSt × SearchSt) :=
        if 3 ≤ depth ∧ maximizing = false ∧ alpha < beta ∧ nd.inCheck = false then
          let b1 := applyNullMove b
          let r := minimax (depth - 3) b1 (-beta) (-alpha) true s
          let null_score := -r.1
          let b2 := undoNullMove r.2.1
          if beta ≤ null_score then
            Sum.inl (null_score, b2,
              { r.2.2 with tt := CustomTT.store r.2.2.tt hash depth null_score 2 })
          else Sum.inr (b2, r.2.2)
        else Sum.inr (b, s)
      match nullTry with
      | Sum.inl res => res
      | Sum.inr (b3, s3) =>
        let moves_vec := order_moves (legalEdges b3.cur) b3.cur s3
        if maximizing then
          let st := foldBreak (fun (st : MMSt) (e : BMove × Node) =>
              let moved_pt := pieceTypeOf (st.b.cur.movedPiece e.1)
              let b4 := applyMove st.b e.2
              let r := minimax (depth - 1) b4 st.bound beta false st.s
              let eval := r.1
              let b5 := undoMove r.2.1
              let score2 := if st.score < eval then eval else st.score
              let alpha2 := if st.bound < eval then eval else st.bound
              if beta ≤ alpha2 then
                let ks := updateKillers r.2.2.killers b5.cur.ply e.1
                let hist := updateHistory r.2.2.history moved_pt e.1.dest depth
                ({ score := score2, bound := alpha2, flag := 1, b := b5,
                   s := { r.2.2 with killers := ks, history := hist } }, true)
              else
                ({ score := score2, bound := alpha2, flag := st.flag, b := b5,
                   s := r.2.2 }, false))
            { score := -INFINITY, bound := alpha, flag := 0, b := b3, s := s3 } moves_vec
          (st.score, st.b, { st.s with tt := CustomTT.store st.s.tt hash depth st.score st.flag })
        else
          let st := foldBreak (fun (st : MMSt) (e : BMove × Node) =>
              let moved_pt := pieceTypeOf (st.b.cur.movedPiece e.1)
              let b4 := applyMove st.b e.2
              let r := minimax (depth - 1) b4 alpha st.bound true st.s
              let eval := r.1
              let b5 := undoMove r.2.1
              let score2 := if eval < st.score then eval else st.score
              let beta2 := if eval < st.bound then eval else st.bound
              if beta2 ≤ alpha then
                let ks := updateKillers r.2.2.killers b5.cur.ply e.1
                let hist := updateHistory r.2.2.history moved_pt e.1.dest depth
                ({ score := score2, bound := beta2, flag := 2, b := b5,
                   s := { r.2.2 with killers := ks, history := hist } }, true)
              else
                ({ score := score2, bound := beta2, flag := st.flag, b := b5,
                   s := r.2.2 }, false))
            { score := INFINITY, bound := beta, flag := 0, b := b3, s := s3 } moves_vec
          (st.score, st.b, { st.s with tt := CustomTT.store st.s.tt hash depth st.score st.flag })
termination_by depth
decreasing_by
  all_goals omega

/-- The per-depth state of the iterative-deepening loop of `get_best_move`. -/
structure RootSt where
  best_move : BMove
  b : BoardSt
  s : SearchSt

/-- The inner per-move state of one root pass of `get_best_move`. -/
structure RootIter where
  current_best : BMove
  current_value : Int
  b : BoardSt
  s : SearchSt

/-- Model of `get_best_move` (engine.rs lines 330-370): a fresh
transposition table, shared across all depths; the legal root moves are
generated once and the null move is returned when there are none; each
depth from 1 to max_depth reorders them, searches each with a full window at
depth minus 1 with roles flipped, keeps the strictly best value, and stops
iterating when no candidate was kept.  The process-global killer and
history tables enter as arguments and the final mutable state is returned. -/
def get_best_move (b : BoardSt) (max_depth : Nat) (ks : Killers) (hist : HistTable) :
    BMove × BoardSt × SearchSt :=
  let s0 : SearchSt := { tt := CustomTT.new, killers := ks, history := hist }
  let maximizing := b.cur.turn = Player.white
  let moves := legalEdges b.cur
  if moves.isEmpty then (nullMove, b, s0)
  else
    let final := foldBreak (fun (st : RootSt) (d : Nat) =>
        let init : RootIter :=
          { current_best := nullMove,
            current_value := if maximizing then -INFINITY else INFINITY,
            b := st.b, s := st.s }
        let moves_vec := order_moves moves st.b.cur st.s
        let res := moves_vec.foldl (fun (acc : RootIter) (e : BMove × Node) =>
            let b1 := applyMove acc.b e.2
            let r := minimax (d - 1) b1 (-INFINITY) INFINITY (!(decide maximizing)) acc.s
            let value := r.1
            let b2 := undoMove r.2.1
            if (decide maximizing && decide (acc.current_value < value)) ||
               (!(decide maximizing) && decide (value < acc.current_value)) then
              { current_best := e.1, current_value := value, b := b2, s := r.2.2 }
            else
              { acc with b := b2, s := r.2.2 }) init
        if res.current_best.isNull then
          ({ st with b := res.b, s := res.s }, true)
        else
          ({ best_move := res.current_best, b := res.b, s := res.s }, false))
      { best_move := nullMove, b := b, s := s0 }
      (List.range' 1 max_depth)
    (final.best_move, final.b, final.s)

/-- One killer table extends another: every slot already holding a non-null
move keeps exactly that move. -/
def killersMono (k1 k2 : Killers) : Prop :=
  ∀ i : Fin 64,
    ((k1 i).1.isNull = false → (k2 i).1 = (k1 i).1) ∧
    ((k1 i).2.isNull = false → (k2 i).2 = (k1 i).2)

/-- The material values as the specification lists them (spec §4.1): pawn
100, knight 320, bishop 330, rook 500, queen 900, king 20000. -/
def specMaterial : PieceType → Int
  | PieceType.p => 100
  | PieceType.n => 320
  | PieceType.b => 330
  | PieceType.r => 500
  | PieceType.q => 900
  | PieceType.k => 20000
  | _ => 0

/-- The specification's per-square summand (spec §4.1): material value plus
the PSQT entry at the square for White and at 63 minus the square for
Black, with Black's contribution subtracted. -/
def specSquareScore (nd : Node) (i : Fin 64) : Int :=
  match nd.pieceAt i with
  | Option.none => 0
  | Option.some (pl, pt) =>
    let v := specMaterial pt +
      psqtValue pt (if pl = Player.white then (i : Nat) else 63 - (i : Nat))
    if pl = Player.white then v else -v

/-- An all-null killer table (the initial state of the KILLERS global). -/
def ksInit : Killers := fun _ => (nullMove, nullMove)

/-- An all-zero history table (the initial state of the HISTORY global). -/
def histInit : HistTable := fun _ _ => 0

/-- Fresh search state: empty transposition table, empty killer and history
tables. -/
def sInit : SearchSt := { tt := CustomTT.new, killers := ksInit, history := histInit }

/-- An empty board surface. -/
def emptySquares : Fin 64 → Piece := fun _ => Option.none

/-- Fixture: a quiet position with hash 5, White to move, no pieces and no
moves. -/
def nodeC1 : Node :=
  Node.mk 5 Player.white 0 false false false emptySquares
    (fun _ => true) (fun _ => true) [] Option.none

/-- Fixture: a transposition table holding an exact entry with score 5 for
hash 5 at depth 0. -/
def ttC1 : TT := CustomTT.store CustomTT.new 5 0 5 0

/-- Fixture: search state carrying `ttC1`. -/
def sC1 : SearchSt := { tt := ttC1, killers := ksInit, history := histInit }

/-- Fixture: the position reached by a null move from `rootC2`: hash 1,
Black to move, a single white pawn on square 0, no moves. -/
def leafC2 : Node :=
  Node.mk 1 Player.black 0 false false false
    (fun i => if i = 0 then Option.some (Player.white, PieceType.p) else Option.none)
    (fun _ => true) (fun _ => true) [] Option.none

/-- Fixture: a quiet position with hash 0, Black to move, not in check,
whose null move leads to `leafC2`. -/
def rootC2 : Node :=
  Node.mk 0 Player.black 0 false false false emptySquares
    (fun _ => true) (fun _ => true) [] (Option.some leafC2)

/-- Fixture: board state at `rootC2` with an empty undo stack. -/
def bC2 : BoardSt := { cur := rootC2, stack := [] }

/-- Fixture: a knight move from square 1 to square 18 (b1 to c3). -/
def mvC5 : BMove :=
  { id := 100, src := 1, dest := 18, isCapture := false,
    isKingCastle := false, isQueenCastle := false, isEp := false }

/-- Fixture: the position after `mvC5` when the move gives check. -/
def childC5 : Node :=
  Node.mk 2 Player.black 1 true false false emptySquares
    (fun _ => true) (fun _ => true) [] Option.none

/-- Fixture: a position with a white knight on square 1 whose single legal
move `mvC5` gives check. -/
def nodeC5 : Node :=
  Node.mk 3 Player.white 0 false false false
    (fun i => if i = 1 then Option.some (Player.white, PieceType.n) else Option.none)
    (fun _ => true) (fun _ => true) [(mvC5, childC5)] Option.none

/-- Fixture: the position after `mvC5` when the move gives no check. -/
def childC5b : Node :=
  Node.mk 2 Player.black 1 false false false emptySquares
    (fun _ => true) (fun _ => true) [] Option.none

/-- Fixture: a position with a white knight on square 1 whose single legal
move `mvC5` gives no check. -/
def nodeC5b : Node :=
  Node.mk 3 Player.white 0 false false false
    (fun i => if i = 1 then Option.some (Player.white, PieceType.n) else Option.none)
    (fun _ => true) (fun _ => true) [(mvC5, childC5b)] Option.none

/-- Fixture: a capture by the knight on square 1 of the rook on square 18. -/
def mvCapW : BMove :=
  { id := 7, src := 1, dest := 18, isCapture := true,
    isKingCastle := false, isQueenCastle := false, isEp := false }

/-- Fixture: a quiet move that sits in the killer table. -/
def kW : BMove :=
  { id := 9, src := 0, dest := 8, isCapture := false,
    isKingCastle := false, isQueenCastle := false, isEp := false }

/-- Fixture: a quiet knight move to square 16. -/
def mvQuietW : BMove :=
  { id := 11, src := 1, dest := 16, isCapture := false,
    isKingCastle := false, isQueenCastle := false, isEp := false }

/-- Fixture: a board with a white knight on square 1 and a black rook on
square 18. -/
def ndW : Node :=
  Node.mk 4 Player.white 0 false false false
    (fun i =>
      if i = 1 then Option.some (Player.white, PieceType.n)
      else if i = 18 then Option.some (Player.black, PieceType.r)
      else Option.none)
    (fun _ => true) (fun _ => true) [] Option.none

/-- Fixture: a killer table whose ply-0 entry holds `kW` in its first slot. -/
def ksW : Killers := fun i => if i = 0 then (kW, nullMove) else (nullMove, nullMove)

/-- Fixture: a history table with score 7 for piece index 1 at square 16. -/
def histW : HistTable := fun i j => if i = 1 ∧ j = 16 then 7 else 0

/-- Fixture: search state carrying `ksW` and `histW`. -/
def sW : SearchSt := { tt := CustomTT.new, killers := ksW, history := histW }

/-- Invariant rule for `foldBreak`: a property preserved by every step holds
of the final state, whether or not the loop broke early. -/
theorem foldBreak_inv {σ α : Type} {P : σ → Prop} (f : σ → α → σ × Bool)
    (hf : ∀ st a, P st → P (f st a).1) :
    ∀ (l : List α) (st : σ), P st → P (foldBreak f st l) := by
  intro l
  induction l with
  | nil => intro st h; exact h
  | cons x xs ih =>
    intro st h
    simp only [foldBreak]
    split
    · exact hf st x h
    · exact ih _ (hf st x h)

/-- Invariant rule for `List.foldl`. -/
theorem foldl_inv {σ α : Type} {P : σ → Prop} (f : σ → α → σ)
    (hf : ∀ st a, P st → P (f st a)) :
    ∀ (l : List α) (st : σ), P st → P (l.foldl f st) := by
  intro l
  induction l with
  | nil => intro st h; exact h
  | cons x xs ih =>
    intro st h
    simp only [List.foldl_cons]
    exact ih _ (hf st x h)

/-- Undoing an applied move restores the board state exactly. -/
theorem undoMove_applyMove (b : BoardSt) (c : Node) : undoMove (applyMove b c) = b := rfl

/-- Undoing an applied null move restores the board state exactly. -/
theorem undoNullMove_applyNullMove (b : BoardSt) : undoNullMove (applyNullMove b) = b := rfl

/-- C3: for every hash, depth and score, a `probe` immediately after
`store(hash, depth, score, Exact)` with requested depth at most the stored
depth returns the stored score for every alpha and beta, and `store`
unconditionally overwrites whatever entry was previously at that hash. -/
theorem C3_probe_after_store (tt : TT) (hash depth : Nat) (score : Int)
    (d2 : Nat) (alpha beta : Int) (hle : d2 ≤ depth) :
    CustomTT.probe (CustomTT.store tt hash depth score FLAG_EXACT) hash d2 alpha beta
      = Option.some score
    ∧ ∀ flag : Nat, ∀ score2 : Int, ∀ depth2 : Nat,
        CustomTT.store tt hash depth2 score2 flag hash
          = Option.some { score := score2, depth := depth2, flag := flag } := by
  constructor
  · unfold CustomTT.probe CustomTT.store FLAG_EXACT
    simp [hle]
  · intro flag score2 depth2
    unfold CustomTT.store
    simp

/-- Witness for C3 at hash 9, stored depth 2, score 5, requested depth 1. -/
theorem C3_probe_after_store_witness :
    (1 ≤ 2)
    ∧ CustomTT.probe (CustomTT.store CustomTT.new 9 2 5 FLAG_EXACT) 9 1 0 0
        = Option.some 5 :=
  ⟨by decide, (C3_probe_after_store CustomTT.new 9 2 5 1 0 0 (by decide)).1⟩

/-- The engine's material table and the specification's table agree. -/
theorem pieceValue_eq_specMaterial (pt : PieceType) : pieceValue pt = specMaterial pt := by
  cases pt <;> rfl

/-- One step of the evaluation loop adds the specification's per-square
summand. -/
theorem evalStep_eq (nd : Node) (sc : Int) (i : Fin 64) :
    evalStep nd sc i = sc + specSquareScore nd i := by
  unfold evalStep specSquareScore pieceOwner
  cases h : nd.pieceAt i with
  | none => simp
  | some pr =>
    obtain ⟨pl, pt⟩ := pr
    simp only [Option.map_some, pieceTypeOf, pieceValue_eq_specMaterial]
    cases pl with
    | white => simp
    | black => simp; ring

/-- The evaluation fold computes the sum of the per-square summands. -/
theorem foldl_evalStep (nd : Node) (l : List (Fin 64)) (a : Int) :
    l.foldl (evalStep nd) a = a + (l.map (specSquareScore nd)).sum := by
  induction l generalizing a with
  | nil => simp
  | cons x xs ih =>
    simp only [List.foldl_cons, List.map_cons, List.sum_cons, evalStep_eq, ih]
    ring

/-- `evaluate_board` equals the signed sum of the specification's
per-square summands, negated when Black is to move. -/
theorem evaluate_board_eq_sum (nd : Node) :
    evaluate_board nd =
      (if nd.turn = Player.white then (1 : Int) else -1) *
        ∑ i : Fin 64, specSquareScore nd i := by
  unfold evaluate_board
  rw [foldl_evalStep, Fin.sum_univ_def]
  split <;> ring

/-- C6: `evaluate_board` is the sum over the squares of material value plus
the PSQT value at the square for White and 63 minus the square for Black,
Black's contributions subtracted, the total negated when Black is the side
to move; and it is a pure function of board contents and side to move. -/
theorem C6_evaluate_board (nd : Node) :
    (evaluate_board nd =
      (if nd.turn = Player.white then (1 : Int) else -1) *
        ∑ i : Fin 64, specSquareScore nd i)
    ∧ ∀ nd2 : Node, nd.pieceAt = nd2.pieceAt → nd.turn = nd2.turn →
        evaluate_board nd = evaluate_board nd2 := by
  refine ⟨evaluate_board_eq_sum nd, ?_⟩
  intro nd2 hpa ht
  unfold evaluate_board
  have hstep : evalStep nd = evalStep nd2 := by
    funext sc i
    unfold evalStep
    rw [hpa]
  rw [hstep, ht]

/-- Witness for C6: the formula at a concrete position, and purity across
two positions sharing squares and side to move but nothing else. -/
theorem C6_evaluate_board_witness :
    (evaluate_board nodeC5 =
      (if nodeC5.turn = Player.white then (1 : Int) else -1) *
        ∑ i : Fin 64, specSquareScore nodeC5 i)
    ∧ evaluate_board nodeC5 = evaluate_board nodeC5b :=
  ⟨(C6_evaluate_board nodeC5).1, (C6_evaluate_board nodeC5).2 nodeC5b rfl rfl⟩

/-- Every PSQT entry has magnitude at most 50, and an out-of-range index
yields the default 0. -/
theorem psqtValue_abs_le (pt : PieceType) (idx : Nat) : |psqtValue pt idx| ≤ 50 := by
  by_cases h : idx < 64
  · have hall : ∀ pt : PieceType, ∀ i : Fin 64, |psqtValue pt (i : Nat)| ≤ 50 := by decide
    exact hall pt ⟨idx, h⟩
  · have h64 : 64 ≤ idx := le_of_not_lt h
    have key : ∀ t : List Int, t.length = 64 → psqtAt t idx = 0 := by
      intro t ht
      unfold psqtAt
      have hn : t[idx]? = Option.none := List.getElem?_eq_none (by omega)
      simp [List.getD, hn]
    have k1 : psqtAt PSQT_PAWN_MG idx = 0 := key PSQT_PAWN_MG (by decide)
    have k2 : psqtAt PSQT_KNIGHT_MG idx = 0 := key PSQT_KNIGHT_MG (by decide)
    have k3 : psqtAt PSQT_BISHOP_MG idx = 0 := key PSQT_BISHOP_MG (by decide)
    have k4 : psqtAt PSQT_ROOK_MG idx = 0 := key PSQT_ROOK_MG (by decide)
    have k5 : psqtAt PSQT_QUEEN_MG idx = 0 := key PSQT_QUEEN_MG (by decide)
    have k6 : psqtAt PSQT_KING_MG idx = 0 := key PSQT_KING_MG (by decide)
    cases pt <;> simp [psqtValue, k1, k2, k3, k4, k5, k6]

/-- Every material value has magnitude at most 20000. -/
theorem pieceValue_abs_le (pt : PieceType) : |pieceValue pt| ≤ 20000 := by
  cases pt <;> decide

/-- The per-square intermediate sum has magnitude at most 20050. -/
theorem contrib_abs_le (pt : PieceType) (idx : Nat) :
    |pieceValue pt + psqtValue pt idx| ≤ 20050 := by
  have h1 := pieceValue_abs_le pt
  have h2 := psqtValue_abs_le pt idx
  calc |pieceValue pt + psqtValue pt idx| ≤ |pieceValue pt| + |psqtValue pt idx| := abs_add _ _
    _ ≤ 20050 := by linarith

/-- One evaluation step moves the accumulator by at most 20050. -/
theorem evalStep_abs_le (nd : Node) (sc : Int) (i : Fin 64) :
    |evalStep nd sc i| ≤ |sc| + 20050 := by
  unfold evalStep
  cases h : pieceOwner (nd.pieceAt i) with
  | none =>
    simp only []
    have : (0 : Int) ≤ 20050 := by norm_num
    linarith [abs_nonneg sc]
  | some pl =>
    have hc := contrib_abs_le (pieceTypeOf (nd.pieceAt i))
      (if pl = Player.white then (i : Nat) else 63 - (i : Nat))
    cases hpl : pl with
    | white =>
      simp only [hpl, if_pos rfl]
      calc |sc + (pieceValue (pieceTypeOf (nd.pieceAt i)) +
              psqtValue (pieceTypeOf (nd.pieceAt i)) (if Player.white = Player.white then (i : Nat) else 63 - (i : Nat)))|
          ≤ |sc| + |pieceValue (pieceTypeOf (nd.pieceAt i)) +
              psqtValue (pieceTypeOf (nd.pieceAt i)) (if Player.white = Player.white then (i : Nat) else 63 - (i : Nat))| := abs_add _ _
        _ ≤ |sc| + 20050 := by
            have := contrib_abs_le (pieceTypeOf (nd.pieceAt i))
              (if Player.white = Player.white then (i : Nat) else 63 - (i : Nat))
            linarith
    | black =>
      simp only [hpl]
      have hne : (Player.black = Player.white) = False := by simp
      simp only [hne, if_false]
      have hg := contrib_abs_le (pieceTypeOf (nd.pieceAt i)) (63 - (i : Nat))
      calc |sc - (pieceValue (pieceTypeOf (nd.pieceAt i)) +
              psqtValue (pieceTypeOf (nd.pieceAt i)) (63 - (i : Nat)))|
          ≤ |sc| + |pieceValue (pieceTypeOf (nd.pieceAt i)) +
              psqtValue (pieceTypeOf (nd.pieceAt i)) (63 - (i : Nat))| := abs_sub _ _
        _ ≤ |sc| + 20050 := by linarith

/-- The evaluation fold stays within 20050 per visited square. -/
theorem foldl_evalStep_abs (nd : Node) (l : List (Fin 64)) (a : Int) :
    |l.foldl (evalStep nd) a| ≤ |a| + 20050 * (l.length : Int) := by
  induction l generalizing a with
  | nil => simp
  | cons x xs ih =>
    simp only [List.foldl_cons, List.length_cons]
    have h1 := ih (evalStep nd a x)
    have h2 := evalStep_abs_le nd a x
    push_cast
    push_cast at h1
    linarith

/-- C10: the arithmetic of `evaluate_board` is exact: each per-square
intermediate (the i16 sum of material and PSQT values) has magnitude at
most 20050, inside the i16 range; every partial i32 accumulation moves by
at most 20050 per square, so the total over the 64 squares, and its final
negation, have magnitude at most 20050 times 64, far inside the i32
range. -/
theorem C10_no_overflow :
    (∀ pt : PieceType, ∀ idx : Nat, |pieceValue pt + psqtValue pt idx| ≤ 20050)
    ∧ ((20050 : Int) < 2 ^ 15)
    ∧ (∀ nd : Node, ∀ (l : List (Fin 64)) (a : Int),
        |l.foldl (evalStep nd) a| ≤ |a| + 20050 * (l.length : Int))
    ∧ (∀ nd : Node, |evaluate_board nd| ≤ 20050 * 64)
    ∧ ((20050 * 64 : Int) < 2 ^ 31) := by
  refine ⟨contrib_abs_le, by norm_num, foldl_evalStep_abs, ?_, by norm_num⟩
  intro nd
  have h := foldl_evalStep_abs nd (List.finRange 64) 0
  simp only [List.length_finRange, abs_zero, zero_add] at h
  unfold evaluate_board
  split
  · exact le_trans h (by norm_num)
  · rw [abs_neg]
    exact le_trans h (by norm_num)

/-- C7: `score_move` gives captures 10000 plus 100 times the victim's
material value minus the attacker's material value; gives 9000 to every
non-capture equal to one of the two killers stored at ply index 0 of the
killer table, whatever the current ply is; gives every other quiet move its
history score for (moved piece type, destination) plus 1000; and
`order_moves` returns a permutation of its input sorted by this key in
descending order, touching no state. -/
theorem C7_score_move_order (m : BMove) (nd : Node) (s : SearchSt)
    (ms : List (BMove × Node)) :
    (m.isCapture = true →
      score_move m nd s =
        10000 + pieceValue (nd.capturedPiece m) * 100 -
          pieceValue (pieceTypeOf (nd.movedPiece m)))
    ∧ (m.isCapture = false → (m = (s.killers 0).1 ∨ m = (s.killers 0).2) →
      score_move m nd s = 9000)
    ∧ (m.isCapture = false → ¬(m = (s.killers 0).1 ∨ m = (s.killers 0).2) →
      score_move m nd s = s.history (ptIdx (pieceTypeOf (nd.movedPiece m))) m.dest + 1000)
    ∧ (order_moves ms nd s).Perm ms
    ∧ List.Pairwise (fun a b => score_move b.1 nd s ≤ score_move a.1 nd s)
        (order_moves ms nd s) := by
  refine ⟨?_, ?_, ?_, ?_, ?_⟩
  · intro hc
    unfold score_move Node.isCaptureMv
    rw [hc]
    simp
  · intro hc hk
    unfold score_move Node.isCaptureMv
    rw [hc]
    simp [hk]
  · intro hc hk
    unfold score_move Node.isCaptureMv
    rw [hc]
    simp [hk]
  · exact List.perm_insertionSort _ ms
  · haveI h1 : IsTotal (BMove × Node)
        (fun a b => score_move b.1 nd s ≤ score_move a.1 nd s) :=
      ⟨fun a b => le_total _ _⟩
    haveI h2 : IsTrans (BMove × Node)
        (fun a b => score_move b.1 nd s ≤ score_move a.1 nd s) :=
      ⟨fun a b c hab hbc => le_trans hbc hab⟩
    exact List.sorted_insertionSort _ ms

/-- Witness for C7 at concrete moves: a rook captured by a knight, a killer
stored at ply index 0, and a quiet knight move with history 7. -/
theorem C7_score_move_order_witness :
    mvCapW.isCapture = true
    ∧ score_move mvCapW ndW sW =
        10000 + pieceValue (ndW.capturedPiece mvCapW) * 100 -
          pieceValue (pieceTypeOf (ndW.movedPiece mvCapW))
    ∧ score_move kW ndW sW = 9000
    ∧ score_move mvQuietW ndW sW =
        sW.history (ptIdx (pieceTypeOf (ndW.movedPiece mvQuietW))) mvQuietW.dest + 1000
    ∧ (order_moves [(mvCapW, childC5b), (kW, childC5b)] ndW sW).Perm
        [(mvCapW, childC5b), (kW, childC5b)] :=
  ⟨rfl,
   (C7_score_move_order mvCapW ndW sW []).1 rfl,
   (C7_score_move_order kW ndW sW []).2.1 rfl (Or.inl (by decide)),
   (C7_score_move_order mvQuietW ndW sW []).2.2.1 rfl (by decide),
   (C7_score_move_order mvCapW ndW sW [(mvCapW, childC5b), (kW, childC5b)]).2.2.2.1⟩

/-- Quiescence restores the board it was given and leaves the killer and
history tables untouched, for boards of bounded size (auxiliary form for
the induction). -/
theorem quiescence_state_aux :
    ∀ (n : Nat) (b : BoardSt) (alpha beta : Int) (s : SearchSt), sizeOf b.cur ≤ n →
      (quiescence b alpha beta s).2.1 = b
      ∧ (quiescence b alpha beta s).2.2.killers = s.killers
      ∧ (quiescence b alpha beta s).2.2.history = s.history := by
  intro n
  induction n using Nat.strong_induction_on with
  | _ n ih =>
    intro b alpha beta s hle
    have hq : ∀ (b1 : BoardSt) (a1 b2 : Int) (s1 : SearchSt), sizeOf b1.cur < sizeOf b.cur →
        (quiescence b1 a1 b2 s1).2.1 = b1
        ∧ (quiescence b1 a1 b2 s1).2.2.killers = s1.killers
        ∧ (quiescence b1 a1 b2 s1).2.2.history = s1.history := by
      intro b1 a1 b2 s1 hlt
      exact ih (sizeOf b1.cur) (lt_of_lt_of_le hlt hle) b1 a1 b2 s1 le_rfl
    unfold quiescence
    dsimp only
    split
    · exact ⟨rfl, rfl, rfl⟩
    · split
      · exact ⟨rfl, rfl, rfl⟩
      · split
        all_goals try dsimp only
        all_goals
          refine foldBreak_inv
            (P := fun st : QSt => st.b = b ∧ st.s.killers = s.killers ∧ st.s.history = s.history)
            _ ?_ _ _ ⟨rfl, rfl, rfl⟩
        all_goals
          intro st ea hst
          obtain ⟨hb, hk, hh⟩ := hst
          try dsimp only
          split
          · exact ⟨hb, hk, hh⟩
          · have hsz : sizeOf (applyMove st.b ea.1.2).cur < sizeOf b.cur := by
              simp only [applyMove]
              have h1 : ea.1 ∈ (b.cur).edges := by
                have h0 := ea.2
                unfold qCaptures order_moves at h0
                exact (List.mem_filter.1 ((List.mem_insertionSort _).1 h0)).1
              have h3 : sizeOf ea.1 < sizeOf (b.cur).edges := List.sizeOf_lt_of_mem h1
              have h2 : sizeOf ea.1.2 < sizeOf ea.1 := by
                obtain ⟨⟨mv, c⟩, hmem⟩ := ea
                simp only [Prod.mk.sizeOf_spec]
                omega
              have h4 : sizeOf (b.cur).edges < sizeOf b.cur := by
                cases b.cur with
                | mk h t pl ic cm sm pa lm sg es nc =>
                  simp only [Node.edges, Node.mk.sizeOf_spec]
                  omega
              omega
            obtain ⟨hqb, hqk, hqh⟩ := hq (applyMove st.b ea.1.2) (-beta) (-st.alpha) st.s hsz
            split
            · exact ⟨by rw [hqb, undoMove_applyMove, hb], by rw [hqk, hk], by rw [hqh, hh]⟩
            · exact ⟨by rw [hqb, undoMove_applyMove, hb], by rw [hqk, hk], by rw [hqh, hh]⟩

/-- Quiescence restores the board it was given and leaves the killer and
history tables untouched. -/
theorem quiescence_state (b : BoardSt) (alpha beta : Int) (s : SearchSt) :
    (quiescence b alpha beta s).2.1 = b
    ∧ (quiescence b alpha beta s).2.2.killers = s.killers
    ∧ (quiescence b alpha beta s).2.2.history = s.history :=
  quiescence_state_aux (sizeOf b.cur) b alpha beta s le_rfl

/-- C1 (amended): whenever alpha is at most beta and the transposition-table
probe at the current position's hash does not produce a usable score above
beta, `quiescence` returns a value at most the beta passed in, over any
capture tree and any recursion results. -/
theorem C1_quiescence_fail_hard (b : BoardSt) (alpha beta : Int) (s : SearchSt)
    (hab : alpha ≤ beta)
    (hpr : ∀ v : Int, CustomTT.probe s.tt (b.cur).hash 0 alpha beta = Option.some v → v ≤ beta) :
    (quiescence b alpha beta s).1 ≤ beta := by
  unfold quiescence
  dsimp only
  split
  · rename_i score heq
    exact hpr score heq
  · split
    · exact le_rfl
    · rename_i hsp
      split
      · rename_i v heq
        refine ((foldBreak_inv
          (P := fun st : QSt => st.alpha ≤ beta ∧ ∀ w : Int, st.ret = Option.some w → w ≤ beta)
          _ ?_ _ _ ?_).2 v heq)
        · intro st ea hst
          obtain ⟨h1, h2⟩ := hst
          try dsimp only
          split
          · exact ⟨h1, h2⟩
          · split
            · rename_i hge
              exact ⟨h1, fun w hw => by
                injection hw with hw2
                omega⟩
            · rename_i hlt
              refine ⟨?_, fun w hw => by cases hw⟩
              split
              · dsimp only
                omega
              · dsimp only
                exact h1
        · refine ⟨?_, fun w hw => by cases hw⟩
          split
          · dsimp only
            omega
          · dsimp only
            exact hab
      · refine (foldBreak_inv
          (P := fun st : QSt => st.alpha ≤ beta ∧ ∀ w : Int, st.ret = Option.some w → w ≤ beta)
          _ ?_ _ _ ?_).1
        · intro st ea hst
          obtain ⟨h1, h2⟩ := hst
          try dsimp only
          split
          · exact ⟨h1, h2⟩
          · split
            · rename_i hge
              exact ⟨h1, fun w hw => by
                injection hw with hw2
                omega⟩
            · rename_i hlt
              refine ⟨?_, fun w hw => by cases hw⟩
              split
              · dsimp only
                omega
              · dsimp only
                exact h1
        · refine ⟨?_, fun w hw => by cases hw⟩
          split
          · dsimp only
            omega
          · dsimp only
            exact hab

/-- Counterexample for C1 as stated: `quiescence` can return a value above
the beta passed in.  With a transposition-table entry of score 5 stored
exact for the position's hash, a probe hit returns 5 above beta 1; and with
an empty table but alpha 5 above beta 1, the final alpha 5 is returned,
again above beta 1. -/
theorem C1_quiescence_counterexample :
    (quiescence { cur := nodeC1, stack := [] } 0 1 sC1).1 = 5
    ∧ (quiescence { cur := nodeC1, stack := [] } 5 1 sInit).1 = 5
    ∧ (1 : Int) < 5 := by
  refine ⟨?_, ?_, by norm_num⟩
  · unfold quiescence
    dsimp only
    have hp : CustomTT.probe sC1.tt (Node.hash nodeC1) 0 0 1 = Option.some 5 := by decide
    simp only [hp]
  · unfold quiescence
    dsimp only
    have hp : CustomTT.probe sInit.tt (Node.hash nodeC1) 0 5 1 = Option.none := by decide
    have hev : evaluate_board nodeC1 = 0 := by decide
    have hcap : qCaptures nodeC1 sInit = [] := rfl
    simp only [hp, hev, hcap, List.attach_nil, foldBreak]
    norm_num

/-- Witness for the amended C1 at a concrete quiet position with an empty
table, alpha 0 and beta 1. -/
theorem C1_quiescence_fail_hard_witness :
    (0 : Int) ≤ 1
    ∧ (quiescence { cur := nodeC1, stack := [] } 0 1 sInit).1 ≤ 1 := by
  refine ⟨by norm_num, C1_quiescence_fail_hard _ 0 1 sInit (by norm_num) ?_⟩
  intro v h
  have hp : CustomTT.probe sInit.tt (Node.hash nodeC1) 0 0 1 = Option.none := by decide
  rw [show ({ cur := nodeC1, stack := [] } : BoardSt).cur = nodeC1 from rfl] at h
  rw [hp] at h
  cases h

/-- `killersMono` is reflexive. -/
theorem killersMono_refl (k : Killers) : killersMono k k :=
  fun _ => ⟨fun _ => rfl, fun _ => rfl⟩

/-- `killersMono` is transitive. -/
theorem killersMono_trans {k1 k2 k3 : Killers}
    (h12 : killersMono k1 k2) (h23 : killersMono k2 k3) : killersMono k1 k3 := by
  intro i
  refine ⟨fun hn => ?_, fun hn => ?_⟩
  · have e12 := (h12 i).1 hn
    have e23 := (h23 i).1 (by rw [e12]; exact hn)
    rw [e23, e12]
  · have e12 := (h12 i).2 hn
    have e23 := (h23 i).2 (by rw [e12]; exact hn)
    rw [e23, e12]

/-- A killer update never clears or replaces an occupied slot. -/
theorem killersMono_update (k : Killers) (ply : Nat) (m : BMove) :
    killersMono k (updateKillers k ply m) := by
  intro i
  unfold updateKillers
  split
  · rename_i h0
    refine ⟨fun hn => ?_, fun hn => ?_⟩
    · dsimp only
      split
      · rename_i hie
        rw [hie] at hn
        rw [hn] at h0
        cases h0
      · rfl
    · dsimp only
      split
      · rename_i hie
        rw [hie]
      · rfl
  · split
    · rename_i h0 h1
      refine ⟨fun hn => ?_, fun hn => ?_⟩
      · dsimp only
        split
        · rename_i hie
          rw [hie]
        · rfl
      · dsimp only
        split
        · rename_i hie
          rw [hie] at hn
          rw [hn] at h1
          cases h1
        · rfl
    · exact ⟨fun _ => rfl, fun _ => rfl⟩

/-- Minimax restores the board it was given, and only ever extends the
killer table: occupied slots are never cleared or overwritten. -/
theorem minimax_state :
    ∀ (depth : Nat) (b : BoardSt) (alpha beta : Int) (maximizing : Bool) (s : SearchSt),
      (minimax depth b alpha beta maximizing s).2.1 = b
      ∧ killersMono s.killers (minimax depth b alpha beta maximizing s).2.2.killers := by
  intro depth
  induction depth using Nat.strong_induction_on with
  | _ depth ih =>
    intro b alpha beta maximizing s
    cases maximizing with
    | true =>
      unfold minimax
      try dsimp only
      split
      · exact ⟨rfl, killersMono_refl _⟩
      · split
        · exact ⟨rfl, killersMono_refl _⟩
        · split
          · exact ⟨rfl, killersMono_refl _⟩
          · split
            · obtain ⟨hqb, hqk, hqh⟩ := quiescence_state b alpha beta s
              refine ⟨hqb, ?_⟩
              try dsimp only
              rw [hqk]
              exact killersMono_refl _
            · rename_i hd
              rw [if_neg (by simp)]
              try dsimp only
              refine foldBreak_inv
                (P := fun st : MMSt => st.b = b ∧ killersMono s.killers st.s.killers)
                _ ?_ _ _ ⟨rfl, killersMono_refl _⟩
              intro st e hst
              obtain ⟨hb', hk'⟩ := hst
              obtain ⟨hrb, hrk⟩ :=
                ih (depth - 1) (by omega) (applyMove st.b e.2) st.bound beta false st.s
              have hb5 : undoMove (minimax (depth - 1) (applyMove st.b e.2) st.bound beta false st.s).2.1 = b := by
                rw [hrb, undoMove_applyMove, hb']
              try dsimp only
              split
              all_goals try split
              all_goals try dsimp only
              all_goals
                first
                  | exact ⟨hb5, killersMono_trans (killersMono_trans hk' hrk) (killersMono_update _ _ _)⟩
                  | exact ⟨hb5, killersMono_trans hk' hrk⟩
    | false =>
      unfold minimax
      try dsimp only
      split
      · exact ⟨rfl, killersMono_refl _⟩
      · split
        · exact ⟨rfl, killersMono_refl _⟩
        · split
          · exact ⟨rfl, killersMono_refl _⟩
          · split
            · obtain ⟨hqb, hqk, hqh⟩ := quiescence_state b alpha beta s
              refine ⟨hqb, ?_⟩
              try dsimp only
              rw [hqk]
              exact killersMono_refl _
            · rename_i hd
              split
              · -- null-move cutoff arm of the match
                rename_i res heq
                obtain ⟨hrb, hrk⟩ :=
                  ih (depth - 3) (by omega) (applyNullMove b) (-beta) (-alpha) true s
                split at heq
                · split at heq
                  · injection heq with heq2
                    refine ⟨?_, ?_⟩
                    · rw [← heq2]
                      try dsimp only
                      rw [hrb]
                      exact undoNullMove_applyNullMove b
                    · rw [← heq2]
                      try dsimp only
                      exact hrk
                  · cases heq
                · cases heq
              · -- move-loop arm of the match
                rename_i b3 s3 heq
                have hfacts : b3 = b ∧ killersMono s.killers s3.killers := by
                  split at heq
                  · rename_i hc
                    obtain ⟨hrb, hrk⟩ :=
                      ih (depth - 3) (by omega) (applyNullMove b) (-beta) (-alpha) true s
                    split at heq
                    · cases heq
                    · injection heq with heq2
                      injection heq2 with heqb heqs
                      constructor
                      · rw [← heqb, hrb]
                        exact undoNullMove_applyNullMove b
                      · rw [← heqs]
                        exact hrk
                  · injection heq with heq2
                    injection heq2 with heqb heqs
                    rw [← heqb, ← heqs]
                    exact ⟨rfl, killersMono_refl _⟩
                obtain ⟨hb3, hs3⟩ := hfacts
                try dsimp only
                refine foldBreak_inv
                  (P := fun st : MMSt => st.b = b ∧ killersMono s.killers st.s.killers)
                  _ ?_ _ _ ⟨hb3, hs3⟩
                intro st e hst
                obtain ⟨hb', hk'⟩ := hst
                obtain ⟨hrb, hrk⟩ :=
                  ih (depth - 1) (by omega) (applyMove st.b e.2) alpha st.bound true st.s
                have hb5 : undoMove (minimax (depth - 1) (applyMove st.b e.2) alpha st.bound true st.s).2.1 = b := by
                  rw [hrb, undoMove_applyMove, hb']
                try dsimp only
                split
                all_goals try split
                all_goals try dsimp only
                all_goals
                  first
                    | exact ⟨hb5, killersMono_trans (killersMono_trans hk' hrk) (killersMono_update _ _ _)⟩
                    | exact ⟨hb5, killersMono_trans hk' hrk⟩

/-- The iterative-deepening driver restores the board it was given, and
only ever extends the killer table it started from. -/
theorem get_best_move_state (b : BoardSt) (md : Nat) (ks : Killers) (hist : HistTable) :
    (get_best_move b md ks hist).2.1 = b
    ∧ killersMono ks (get_best_move b md ks hist).2.2.killers := by
  unfold get_best_move
  dsimp only
  split
  · exact ⟨rfl, killersMono_refl _⟩
  · refine foldBreak_inv
      (P := fun st : RootSt => st.b = b ∧ killersMono ks st.s.killers)
      _ ?_ _ _ ⟨rfl, killersMono_refl _⟩
    intro st d hst
    obtain ⟨hb', hk'⟩ := hst
    try dsimp only
    split
    all_goals try split
    all_goals try dsimp only
    all_goals
      refine foldl_inv
        (P := fun acc : RootIter => acc.b = b ∧ killersMono ks acc.s.killers)
        _ ?_ _ _ ?_
    all_goals
      first
        | exact ⟨hb', hk'⟩
        | (intro acc e hacc
           obtain ⟨hab', hak'⟩ := hacc
           obtain ⟨hrb, hrk⟩ := minimax_state (d - 1) (applyMove acc.b e.2) (-INFINITY) INFINITY
             (!decide (b.cur.turn = Player.white)) acc.s
           have hb2 : undoMove (minimax (d - 1) (applyMove acc.b e.2) (-INFINITY) INFINITY
               (!decide (b.cur.turn = Player.white)) acc.s).2.1 = b := by
             rw [hrb, undoMove_applyMove, hab']
           try dsimp only
           split
           all_goals try dsimp only
           all_goals exact ⟨hb2, killersMono_trans hak' hrk⟩)

/-- C4: `get_best_move`, `minimax` and `quiescence` leave the board exactly
as they found it on every exit path, transposition-table hits, beta cutoffs
and early returns included: every applied move and null move is undone in
reverse order, so the board state (current position and undo stack) after
each call equals the state at entry. -/
theorem C4_board_restored :
    (∀ (b : BoardSt) (alpha beta : Int) (s : SearchSt),
        (quiescence b alpha beta s).2.1 = b)
    ∧ (∀ (depth : Nat) (b : BoardSt) (alpha beta : Int) (maximizing : Bool) (s : SearchSt),
        (minimax depth b alpha beta maximizing s).2.1 = b)
    ∧ (∀ (b : BoardSt) (md : Nat) (ks : Killers) (hist : HistTable),
        (get_best_move b md ks hist).2.1 = b) :=
  ⟨fun b alpha beta s => (quiescence_state b alpha beta s).1,
   fun depth b alpha beta mx s => (minimax_state depth b alpha beta mx s).1,
   fun b md ks hist => (get_best_move_state b md ks hist).1⟩

/-- C8: every killer-table write targets index ply modulo MAX_PLY, which is
always inside the 64-entry bound; a write only fills a slot currently
holding the null move, leaving every other index untouched; and across
`quiescence`, `minimax` and `get_best_move` an occupied slot is never
cleared or overwritten. -/
theorem C8_killer_invariants :
    (∀ ply : Nat, ply % MAX_PLY < MAX_PLY)
    ∧ (∀ (ks : Killers) (ply : Nat) (m : BMove) (j : Fin 64),
        (j : Nat) ≠ ply % MAX_PLY → updateKillers ks ply m j = ks j)
    ∧ (∀ (ks : Killers) (ply : Nat) (m : BMove), killersMono ks (updateKillers ks ply m))
    ∧ (∀ (b : BoardSt) (alpha beta : Int) (s : SearchSt),
        (quiescence b alpha beta s).2.2.killers = s.killers)
    ∧ (∀ (depth : Nat) (b : BoardSt) (alpha beta : Int) (maximizing : Bool) (s : SearchSt),
        killersMono s.killers (minimax depth b alpha beta maximizing s).2.2.killers)
    ∧ (∀ (b : BoardSt) (md : Nat) (ks : Killers) (hist : HistTable),
        killersMono ks (get_best_move b md ks hist).2.2.killers) := by
  refine ⟨?_, ?_, killersMono_update,
    fun b alpha beta s => (quiescence_state b alpha beta s).2.1,
    fun depth b alpha beta mx s => (minimax_state depth b alpha beta mx s).2,
    fun b md ks hist => (get_best_move_state b md ks hist).2⟩
  · intro ply
    exact Nat.mod_lt _ (by unfold MAX_PLY; omega)
  · intro ks ply m j hj
    have hne : j ≠ killerIndex ply := by
      intro h
      apply hj
      rw [h]
      rfl
    unfold updateKillers
    split
    · dsimp only
      rw [if_neg hne]
    · split
      · dsimp only
        rw [if_neg hne]
      · rfl

/-- Witness for C8: a write at ply 5 leaves index 0 untouched, and a
search from a position with an occupied ply-0 killer slot preserves that
slot. -/
theorem C8_killer_invariants_witness :
    ((0 : Fin 64) : Nat) ≠ 5 % MAX_PLY
    ∧ updateKillers ksW 5 mvC5 0 = ksW 0
    ∧ (ksW 0).1.isNull = false
    ∧ ((minimax 0 { cur := nodeC1, stack := [] } 0 0 true sW).2.2.killers 0).1 = (ksW 0).1 :=
  ⟨by decide,
   (C8_killer_invariants.2.1) ksW 5 mvC5 0 (by decide),
   by decide,
   ((C8_killer_invariants.2.2.2.2.1) 0 { cur := nodeC1, stack := [] } 0 0 true sW 0).1 (by decide)⟩

/-- C2 (amended): when `minimax` reaches the null-move stage (probe missed,
position neither checkmate nor stalemate) with depth at least 3 on the
minimizing branch, a non-empty window, and the side to move not in check,
it applies a null move, recurses at depth minus 3 with negated roles and a
negated window, undoes the null move, and when the negated result is at
least beta it stores that score at the current depth with flag 2 (the
UpperBound code per the TTEntry comment, not LowerBound) and returns it
immediately, the board left exactly as found. -/
theorem C2_null_move_pruning (depth : Nat) (b : BoardSt) (alpha beta : Int) (s : SearchSt)
    (h3 : 3 ≤ depth)
    (hpr : CustomTT.probe s.tt (b.cur).hash depth alpha beta = Option.none)
    (hcm : (b.cur).isCheckmate = false)
    (hsm : (b.cur).isStalemate = false)
    (hab : alpha < beta)
    (hic : (b.cur).inCheck = false)
    (hcut : beta ≤ -(minimax (depth - 3) (applyNullMove b) (-beta) (-alpha) true s).1) :
    minimax depth b alpha beta false s =
      (-(minimax (depth - 3) (applyNullMove b) (-beta) (-alpha) true s).1,
       b,
       { (minimax (depth - 3) (applyNullMove b) (-beta) (-alpha) true s).2.2 with
          tt := CustomTT.store
            ((minimax (depth - 3) (applyNullMove b) (-beta) (-alpha) true s).2.2).tt
            (b.cur).hash depth
            (-(minimax (depth - 3) (applyNullMove b) (-beta) (-alpha) true s).1)
            FLAG_UPPER }) := by
  have hrb := (minimax_state (depth - 3) (applyNullMove b) (-beta) (-alpha) true s).1
  conv_lhs => rw [minimax]
  dsimp only
  rw [hpr]
  dsimp only
  rw [hcm, hsm]
  simp only [Bool.false_eq_true, if_false]
  rw [dif_neg (by omega : ¬ depth = 0)]
  rw [if_pos ⟨h3, by trivial, hab, hic⟩]
  rw [if_pos hcut]
  dsimp only
  rw [hrb, undoNullMove_applyNullMove]
  rfl

/-- The null-move recursion of the C2 fixture evaluates to -1: the leaf is
searched at depth 0, quiescence misses the table, stands pat at -100 for
the side to move, finds no captures, and returns its alpha of -1. -/
theorem C2_recursion_value :
    (minimax (3 - 3) (applyNullMove bC2) (-(1 : Int)) (-(0 : Int)) true sInit).1 = -1 := by
  have hq : (quiescence (applyNullMove bC2) (-(1 : Int)) (-(0 : Int)) sInit).1 = -1 := by
    conv_lhs => rw [quiescence]
    dsimp only
    rw [show CustomTT.probe sInit.tt ((applyNullMove bC2).cur).hash 0 (-(1 : Int)) (-(0 : Int))
        = Option.none from by decide]
    dsimp only
    rw [show evaluate_board ((applyNullMove bC2).cur) = -100 from by decide]
    rw [if_neg (by norm_num : ¬ (-(0 : Int) ≤ -100))]
    rw [show qCaptures ((applyNullMove bC2).cur) sInit = [] from rfl]
    simp only [List.attach_nil, foldBreak]
    norm_num
  conv_lhs => rw [minimax]
  dsimp only
  rw [show CustomTT.probe sInit.tt ((applyNullMove bC2).cur).hash (3 - 3) (-(1 : Int)) (-(0 : Int))
      = Option.none from by decide]
  dsimp only
  rw [show ((applyNullMove bC2).cur).isCheckmate = false from rfl,
      show ((applyNullMove bC2).cur).isStalemate = false from rfl]
  simp only [Bool.false_eq_true, if_false]
  rw [dif_pos (by simp)]
  dsimp only
  exact hq

/-- Counterexample for C2 as stated: on a concrete position meeting all the
null-move conditions, the cutoff entry is stored with flag 2, the UpperBound
code, not the LowerBound code 1 the claim names. -/
theorem C2_counterexample :
    (minimax 3 bC2 0 1 false sInit).2.2.tt 0
      = Option.some { score := 1, depth := 3, flag := 2 }
    ∧ FLAG_LOWER = 1 ∧ (2 : Nat) ≠ FLAG_LOWER := by
  refine ⟨?_, rfl, by decide⟩
  conv_lhs => rw [minimax]
  dsimp only
  rw [show CustomTT.probe sInit.tt (bC2.cur).hash 3 0 1 = Option.none from by decide]
  dsimp only
  rw [show (bC2.cur).isCheckmate = false from rfl,
      show (bC2.cur).isStalemate = false from rfl]
  simp only [Bool.false_eq_true, if_false]
  rw [dif_neg (by simp)]
  rw [if_pos ⟨by norm_num, by trivial, by norm_num, rfl⟩]
  rw [if_pos (by rw [C2_recursion_value]; norm_num :
      (1 : Int) ≤ -(minimax (3 - 3) (applyNullMove bC2) (-(1 : Int)) (-(0 : Int)) true sInit).1)]
  dsimp only
  rw [C2_recursion_value]
  unfold CustomTT.store
  rw [show (bC2.cur).hash = 0 from rfl]
  norm_num

/-- Witness for the amended C2 on the same fixture: all side conditions
hold and the equation of the amended claim follows. -/
theorem C2_null_move_pruning_witness :
    (3 ≤ 3)
    ∧ CustomTT.probe sInit.tt (bC2.cur).hash 3 0 1 = Option.none
    ∧ (bC2.cur).isCheckmate = false
    ∧ (bC2.cur).isStalemate = false
    ∧ ((0 : Int) < 1)
    ∧ (bC2.cur).inCheck = false
    ∧ (1 : Int) ≤ -(minimax (3 - 3) (applyNullMove bC2) (-(1 : Int)) (-(0 : Int)) true sInit).1
    ∧ minimax 3 bC2 0 1 false sInit =
        (-(minimax (3 - 3) (applyNullMove bC2) (-(1 : Int)) (-(0 : Int)) true sInit).1,
         bC2,
         { (minimax (3 - 3) (applyNullMove bC2) (-(1 : Int)) (-(0 : Int)) true sInit).2.2 with
            tt := CustomTT.store
              ((minimax (3 - 3) (applyNullMove bC2) (-(1 : Int)) (-(0 : Int)) true sInit).2.2).tt
              (bC2.cur).hash 3
              (-(minimax (3 - 3) (applyNullMove bC2) (-(1 : Int)) (-(0 : Int)) true sInit).1)
              FLAG_UPPER }) :=
  ⟨le_refl 3, by decide, rfl, rfl, by norm_num, rfl,
   by rw [C2_recursion_value]; norm_num,
   C2_null_move_pruning 3 bC2 0 1 sInit (le_refl 3) (by decide) rfl rfl (by norm_num) rfl
     (by rw [C2_recursion_value]; norm_num)⟩

/-- dropWhile is the identity when no element satisfies the predicate. -/
theorem dropWhile_eq_self_of_forall {p : Char → Bool} :
    ∀ {l : List Char}, (∀ c ∈ l, p c = false) → l.dropWhile p = l := by
  intro l h
  cases l with
  | nil => rfl
  | cons x xs =>
    rw [List.dropWhile_cons, if_neg]
    rw [h x (List.mem_cons_self x xs)]
    simp

/-- trim is the identity on whitespace-free text. -/
theorem trimChars_eq_self {l : List Char} (h : ∀ c ∈ l, c.isWhitespace = false) :
    trimChars l = l := by
  unfold trimChars
  rw [dropWhile_eq_self_of_forall h]
  rw [dropWhile_eq_self_of_forall (fun c hc => h c (List.mem_reverse.1 hc))]
  exact List.reverse_reverse l

/-- Stripping trailing check marks does nothing when the last character is
not a check mark. -/
theorem stripCheckChars_concat (l : List Char) (c : Char)
    (hc : (c == '+' || c == '#') = false) :
    stripCheckChars (l ++ [c]) = l ++ [c] := by
  unfold stripCheckChars
  rw [List.reverse_append]
  simp only [List.reverse_cons, List.reverse_nil, List.nil_append, List.singleton_append]
  rw [List.dropWhile_cons, if_neg (by rw [hc]; simp)]
  simp

/-- Two lists with different last elements differ. -/
theorem concat_ne_concat_of_last {l1 l2 : List Char} {c d : Char} (h : c ≠ d) :
    l1 ++ [c] ≠ l2 ++ [d] := by
  intro he
  have h2 := congrArg List.getLast? he
  rw [List.getLast?_concat, List.getLast?_concat] at h2
  injection h2 with h3
  exact h h3

/-- Lowercasing distributes over a final character. -/
theorem toLowerChars_concat (l : List Char) (c : Char) :
    toLowerChars (l ++ [c]) = toLowerChars l ++ [c.toLower] := by
  unfold toLowerChars
  simp

/-- File letters are never whitespace. -/
theorem file_char_not_ws (sq : Fin 64) : (file_char (fileIdxOfSq sq)).isWhitespace = false := by
  have h : fileIdxOfSq sq < 8 := Nat.mod_lt _ (by omega)
  have hall : ∀ k : Fin 8, (file_char (k : Nat)).isWhitespace = false := by decide
  exact hall ⟨fileIdxOfSq sq, h⟩

/-- Rank digits are never whitespace. -/
theorem rank_char_not_ws (sq : Fin 64) : (rank_char (rankIdxOfSq sq)).isWhitespace = false := by
  have h : rankIdxOfSq sq < 8 := by
    have := sq.isLt
    unfold rankIdxOfSq
    omega
  have hall : ∀ k : Fin 8, (rank_char (k : Nat)).isWhitespace = false := by decide
  exact hall ⟨rankIdxOfSq sq, h⟩

/-- A piece letter other than the pawn blank is never whitespace. -/
theorem piece_char_not_ws (pt : PieceType) (h : ¬ piece_char pt = ' ') :
    (piece_char pt).isWhitespace = false := by
  cases pt <;> revert h <;> decide

/-- Elements of a conditional list satisfy a property when both branches do,
given the branch condition. -/
theorem forall_mem_ite {Q : Char → Prop} (p : Prop) [inst : Decidable p]
    (l1 l2 : List Char)
    (h1 : p → ∀ c ∈ l1, Q c) (h2 : ¬p → ∀ c ∈ l2, Q c) :
    ∀ c ∈ (if p then l1 else l2), Q c := by
  intro c hc
  split at hc
  · exact h1 (by assumption) c hc
  · exact h2 (by assumption) c hc

/-- Elements of an append satisfy a property when both parts do. -/
theorem forall_mem_app {Q : Char → Prop} (l1 l2 : List Char)
    (h1 : ∀ c ∈ l1, Q c) (h2 : ∀ c ∈ l2, Q c) :
    ∀ c ∈ l1 ++ l2, Q c :=
  List.forall_mem_append.mpr ⟨h1, h2⟩

/-- Elements of a cons satisfy a property when head and tail do. -/
theorem forall_mem_cons_intro {Q : Char → Prop} (x : Char) (l : List Char)
    (h1 : Q x) (h2 : ∀ c ∈ l, Q c) :
    ∀ c ∈ x :: l, Q c :=
  List.forall_mem_cons.mpr ⟨h1, h2⟩

/-- The empty list satisfies any membership property. -/
theorem forall_mem_nil_intro {Q : Char → Prop} : ∀ c ∈ ([] : List Char), Q c := by
  intro c hc
  cases hc

/-- Every character of the SAN prefix is non-whitespace. -/
theorem sanPrefix_no_ws (nd : Node) (mv : BMove) :
    ∀ c ∈ sanPrefix nd mv, c.isWhitespace = false := by
  unfold sanPrefix
  dsimp only
  repeat'
    first
      | with_reducible exact forall_mem_nil_intro
      | with_reducible exact file_char_not_ws _
      | with_reducible refine forall_mem_ite _ _ _ (fun hcond => ?_) (fun hcond => ?_)
      | with_reducible refine forall_mem_app _ _ ?_ ?_
      | with_reducible refine forall_mem_cons_intro _ _ ?_ ?_
      | exact piece_char_not_ws _ (by assumption)
      | decide

/-- Every character of an encoded move is non-whitespace. -/
theorem san_no_ws (nd : Node) (e : BMove × Node) :
    ∀ c ∈ bitmove_to_san nd e, c.isWhitespace = false := by
  have hOO : ∀ x ∈ String.toList "O-O", Char.isWhitespace x = false := by decide
  have hOOO : ∀ x ∈ String.toList "O-O-O", Char.isWhitespace x = false := by decide
  unfold bitmove_to_san
  dsimp only
  repeat'
    first
      | with_reducible exact forall_mem_nil_intro
      | with_reducible exact hOO
      | with_reducible exact hOOO
      | with_reducible exact sanPrefix_no_ws nd e.1
      | with_reducible exact file_char_not_ws _
      | with_reducible exact rank_char_not_ws _
      | with_reducible refine forall_mem_ite _ _ _ (fun hcond => ?_) (fun hcond => ?_)
      | with_reducible refine forall_mem_app _ _ ?_ ?_
      | with_reducible refine forall_mem_cons_intro _ _ ?_ ?_
      | decide

/-- An encoded non-null move is never the empty string: it carries the
destination square letters or a castling literal. -/
theorem san_ne_nil (nd : Node) (e : BMove × Node) (hnn : e.1.isNull = false) :
    bitmove_to_san nd e ≠ [] := by
  unfold bitmove_to_san
  rw [hnn]
  simp only [Bool.false_eq_true, if_false]
  try dsimp only
  repeat' split
  all_goals simp [List.append_eq_nil]

/-- A non-null king-castle move encodes to the king-castle literal. -/
theorem san_king_castle (nd : Node) (e : BMove × Node)
    (hnn : e.1.isNull = false) (hkc : e.1.isKingCastle = true) :
    bitmove_to_san nd e = String.toList "O-O" := by
  unfold bitmove_to_san
  rw [hnn, hkc]
  simp

/-- A non-null queen-castle move that is not a king castle encodes to the
queen-castle literal. -/
theorem san_queen_castle (nd : Node) (e : BMove × Node)
    (hnn : e.1.isNull = false) (hkc : e.1.isKingCastle = false)
    (hqc : e.1.isQueenCastle = true) :
    bitmove_to_san nd e = String.toList "O-O-O" := by
  unfold bitmove_to_san
  rw [hnn, hkc, hqc]
  simp

/-- An encoded non-null, non-castling move with no check or checkmate
suffix is the prefix followed by the destination letters, optionally
followed by the queen-promotion mark. -/
theorem san_shape (nd : Node) (e : BMove × Node)
    (hnn : e.1.isNull = false) (hkc : e.1.isKingCastle = false)
    (hqc : e.1.isQueenCastle = false)
    (hchk : e.2.inCheck = false) (hmate : e.2.isCheckmate = false) :
    bitmove_to_san nd e =
      sanPrefix nd e.1 ++ [file_char (fileIdxOfSq e.1.dest), rank_char (rankIdxOfSq e.1.dest)]
    ∨ bitmove_to_san nd e =
      (sanPrefix nd e.1 ++ [file_char (fileIdxOfSq e.1.dest), rank_char (rankIdxOfSq e.1.dest)])
        ++ ['=', 'Q'] := by
  unfold bitmove_to_san
  rw [hnn, hkc, hqc, hchk, hmate]
  simp only [Bool.false_eq_true, if_false]
  try dsimp only
  split
  all_goals split
  all_goals first | (left; rfl) | (right; rfl)

/-- Rank digits lowercase to neither check mark. -/
theorem rank_char_lower_not_check (sq : Fin 64) :
    ((rank_char (rankIdxOfSq sq)).toLower == '+'
      || (rank_char (rankIdxOfSq sq)).toLower == '#') = false := by
  have h : rankIdxOfSq sq < 8 := by
    have := sq.isLt
    unfold rankIdxOfSq
    omega
  have hall : ∀ k : Fin 8,
      ((rank_char (k : Nat)).toLower == '+' || (rank_char (k : Nat)).toLower == '#') = false := by
    decide
  exact hall ⟨rankIdxOfSq sq, h⟩

/-- Rank digits never lowercase to the castling letter. -/
theorem rank_char_lower_ne_o (sq : Fin 64) :
    (rank_char (rankIdxOfSq sq)).toLower ≠ 'o' := by
  have h : rankIdxOfSq sq < 8 := by
    have := sq.isLt
    unfold rankIdxOfSq
    omega
  have hall : ∀ k : Fin 8, (rank_char (k : Nat)).toLower ≠ 'o' := by decide
  exact hall ⟨rankIdxOfSq sq, h⟩

/-- For a non-null, non-castling move whose encoding carries no check or
checkmate suffix, stripping trailing check marks from the lowercased encoding
does nothing, and the lowercased encoding is neither castling literal. -/
theorem clean_of_san (nd : Node) (e : BMove × Node)
    (hnn : e.1.isNull = false) (hkc : e.1.isKingCastle = false)
    (hqc : e.1.isQueenCastle = false)
    (hchk : e.2.inCheck = false) (hmate : e.2.isCheckmate = false) :
    stripCheckChars (toLowerChars (bitmove_to_san nd e)) = toLowerChars (bitmove_to_san nd e)
    ∧ toLowerChars (bitmove_to_san nd e) ≠ String.toList "o-o"
    ∧ toLowerChars (bitmove_to_san nd e) ≠ String.toList "o-o-o" := by
  obtain hs | hs := san_shape nd e hnn hkc hqc hchk hmate
  · have hsplit : bitmove_to_san nd e =
        (sanPrefix nd e.1 ++ [file_char (fileIdxOfSq e.1.dest)])
          ++ [rank_char (rankIdxOfSq e.1.dest)] := by
      rw [hs]
      simp
    rw [hsplit, toLowerChars_concat]
    refine ⟨stripCheckChars_concat _ _ (rank_char_lower_not_check e.1.dest), ?_, ?_⟩
    · rw [show String.toList "o-o" = ['o', '-'] ++ ['o'] from rfl]
      exact concat_ne_concat_of_last (rank_char_lower_ne_o e.1.dest)
    · rw [show String.toList "o-o-o" = ['o', '-', 'o', '-'] ++ ['o'] from rfl]
      exact concat_ne_concat_of_last (rank_char_lower_ne_o e.1.dest)
  · have hsplit : bitmove_to_san nd e =
        ((sanPrefix nd e.1
            ++ [file_char (fileIdxOfSq e.1.dest), rank_char (rankIdxOfSq e.1.dest)])
          ++ ['=']) ++ ['Q'] := by
      rw [hs]
      simp
    rw [hsplit, toLowerChars_concat]
    refine ⟨stripCheckChars_concat _ _ (by decide), ?_, ?_⟩
    · rw [show String.toList "o-o" = ['o', '-'] ++ ['o'] from rfl]
      exact concat_ne_concat_of_last (by decide)
    · rw [show String.toList "o-o-o" = ['o', '-', 'o', '-'] ++ ['o'] from rfl]
      exact concat_ne_concat_of_last (by decide)

set_option maxHeartbeats 1000000 in
/-- C5 (amended): decoding the encoding of a generated legal move in a
non-terminal position returns that move, under the amendments the code
forces: the move must lead to a position with no check or checkmate (the
encoder appends a check suffix that the decoder strips only from its input,
never from the candidate encodings it compares against, so checking moves
never round-trip — the counterexample); and under the library invariants
that generated legal moves are non-null and the castle flags are exclusive,
plus the claim's own no-collision proviso, stated as: any generated legal
move whose lowercased encoding matches this move's is this move. -/
theorem C5_san_roundtrip (nd : Node) (e : BMove × Node)
    (hm : e ∈ nd.edges)
    (hleg : nd.legalMove e.1 = true)
    (hnt1 : nd.isCheckmate = false)
    (hnt2 : nd.isStalemate = false)
    (hchk : e.2.inCheck = false)
    (hmate : e.2.isCheckmate = false)
    (hlegnn : ∀ e2 ∈ nd.edges, nd.legalMove e2.1 = true → e2.1.isNull = false)
    (hflags : ∀ e2 ∈ nd.edges, nd.legalMove e2.1 = true →
        e2.1.isQueenCastle = true → e2.1.isKingCastle = false)
    (hnc : ∀ e2 ∈ nd.edges, nd.legalMove e2.1 = true →
        toLowerChars (bitmove_to_san nd e2) = toLowerChars (bitmove_to_san nd e) →
        e2.1 = e.1) :
    san_to_bitmove nd (bitmove_to_san nd e) = Except.ok e.1 := by
  have hnn : e.1.isNull = false := hlegnn e hm hleg
  by_cases hkc : e.1.isKingCastle = true
  · have hsan : bitmove_to_san nd e = String.toList "O-O" := san_king_castle nd e hnn hkc
    rw [hsan]
    unfold san_to_bitmove
    dsimp only
    rw [if_pos (by decide)]
    have hex : (nd.edges.find? (fun mv => nd.legalMove mv.1 && mv.1.isKingCastle)).isSome
        = true := by
      rw [List.find?_isSome]
      exact ⟨e, hm, by simp [hleg, hkc]⟩
    obtain ⟨e2, hfind⟩ := Option.isSome_iff_exists.mp hex
    rw [hfind, Option.map_some']
    have hp := List.find?_some hfind
    have hmem2 := List.mem_of_find?_eq_some hfind
    simp only [Bool.and_eq_true] at hp
    have hnn2 : e2.1.isNull = false := hlegnn e2 hmem2 hp.1
    have hsan2 : bitmove_to_san nd e2 = String.toList "O-O" := san_king_castle nd e2 hnn2 hp.2
    rw [hnc e2 hmem2 hp.1 (by rw [hsan2, hsan])]
  · have hkc' : e.1.isKingCastle = false := by
      cases h2 : e.1.isKingCastle
      · rfl
      · exact absurd h2 hkc
    by_cases hqc : e.1.isQueenCastle = true
    · have hsan : bitmove_to_san nd e = String.toList "O-O-O" :=
        san_queen_castle nd e hnn hkc' hqc
      rw [hsan]
      unfold san_to_bitmove
      dsimp only
      rw [if_neg (by decide), if_pos (by decide)]
      have hex : (nd.edges.find? (fun mv => nd.legalMove mv.1 && mv.1.isQueenCastle)).isSome
          = true := by
        rw [List.find?_isSome]
        exact ⟨e, hm, by simp [hleg, hqc]⟩
      obtain ⟨e2, hfind⟩ := Option.isSome_iff_exists.mp hex
      rw [hfind, Option.map_some']
      have hp := List.find?_some hfind
      have hmem2 := List.mem_of_find?_eq_some hfind
      simp only [Bool.and_eq_true] at hp
      have hnn2 : e2.1.isNull = false := hlegnn e2 hmem2 hp.1
      have hkc2 : e2.1.isKingCastle = false := hflags e2 hmem2 hp.1 hp.2
      have hsan2 : bitmove_to_san nd e2 = String.toList "O-O-O" :=
        san_queen_castle nd e2 hnn2 hkc2 hp.2
      rw [hnc e2 hmem2 hp.1 (by rw [hsan2, hsan])]
    · have hqc' : e.1.isQueenCastle = false := by
        cases h2 : e.1.isQueenCastle
        · rfl
        · exact absurd h2 hqc
      obtain ⟨hstrip, hne1, hne2⟩ := clean_of_san nd e hnn hkc' hqc' hchk hmate
      unfold san_to_bitmove
      dsimp only
      rw [trimChars_eq_self (san_no_ws nd e), hstrip]
      rw [if_neg hne1, if_neg hne2]
      have hex : (nd.edges.find? (fun mv => nd.legalMove mv.1 &&
          (toLowerChars (bitmove_to_san nd mv)
            == toLowerChars (bitmove_to_san nd e)))).isSome = true := by
        rw [List.find?_isSome]
        exact ⟨e, hm, by simp [hleg]⟩
      obtain ⟨e2, hfind⟩ := Option.isSome_iff_exists.mp hex
      rw [hfind]
      have hp := List.find?_some hfind
      have hmem2 := List.mem_of_find?_eq_some hfind
      simp only [Bool.and_eq_true, beq_iff_eq] at hp
      dsimp only
      rw [hnc e2 hmem2 hp.1 hp.2]

/-- C5 counterexample to the unamended claim: in the fixture position the
knight move is the only generated legal move (so no encoding collision) and
is not a promotion, yet because it gives check the decoder rejects its own
encoder's output with the no-match error. -/
theorem C5_san_counterexample :
    nodeC5.edges = [(mvC5, childC5)]
    ∧ nodeC5.legalMove mvC5 = true
    ∧ nodeC5.isCheckmate = false
    ∧ nodeC5.isStalemate = false
    ∧ pieceTypeOf (nodeC5.movedPiece mvC5) = PieceType.n
    ∧ bitmove_to_san nodeC5 (mvC5, childC5) = String.toList "Nc3+"
    ∧ san_to_bitmove nodeC5 (bitmove_to_san nodeC5 (mvC5, childC5)) =
        Except.error (noMatchMsg (String.toList "Nc3+")) := by
  refine ⟨rfl, rfl, rfl, rfl, rfl, by decide, by rfl⟩

/-- C5 witness: the amended round trip at the fixture position whose single
legal move gives no check. -/
theorem C5_san_roundtrip_witness :
    san_to_bitmove nodeC5b (bitmove_to_san nodeC5b (mvC5, childC5b)) = Except.ok mvC5 := by
  have hedges : nodeC5b.edges = [(mvC5, childC5b)] := rfl
  refine C5_san_roundtrip nodeC5b (mvC5, childC5b) ?_ rfl rfl rfl rfl rfl ?_ ?_ ?_
  · rw [hedges]
    exact List.mem_singleton.mpr rfl
  · intro e2 he2 _
    rw [hedges, List.mem_singleton] at he2
    subst he2
    rfl
  · intro e2 he2 _ hq
    rw [hedges, List.mem_singleton] at he2
    subst he2
    exact absurd hq (by decide)
  · intro e2 he2 _ _
    rw [hedges, List.mem_singleton] at he2
    subst he2
    rfl

/-- C9: the null move encodes to the empty string; every generated legal
move (non-null by the library invariant) encodes to a non-empty string; any
input that normalizes (trim, lowercase, strip trailing check marks) to the
empty string draws the no-match error from the decoder; and a successful
decode never returns the null move — so the encode/decode round trip
necessarily fails for the null move. -/
theorem C9_empty_san (nd : Node)
    (hlegnn : ∀ e ∈ nd.edges, nd.legalMove e.1 = true → e.1.isNull = false) :
    (∀ e : BMove × Node, e.1.isNull = true → bitmove_to_san nd e = [])
    ∧ (∀ e ∈ nd.edges, nd.legalMove e.1 = true → bitmove_to_san nd e ≠ [])
    ∧ (∀ san : List Char, stripCheckChars (toLowerChars (trimChars san)) = [] →
        san_to_bitmove nd san = Except.error (noMatchMsg san))
    ∧ (∀ (san : List Char) (m : BMove),
        san_to_bitmove nd san = Except.ok m → m.isNull = false) := by
  have hmain : ∀ cs : List Char,
      nd.edges.find? (fun mv => nd.legalMove mv.1 &&
        (toLowerChars (bitmove_to_san nd mv) == cs)) = Option.none ∨
      ∃ e2 ∈ nd.edges, nd.edges.find? (fun mv => nd.legalMove mv.1 &&
        (toLowerChars (bitmove_to_san nd mv) == cs)) = Option.some e2 ∧
        nd.legalMove e2.1 = true := by
    intro cs
    cases hf : nd.edges.find? (fun mv => nd.legalMove mv.1 &&
        (toLowerChars (bitmove_to_san nd mv) == cs)) with
    | none => exact Or.inl rfl
    | some e2 =>
      have hp := List.find?_some hf
      simp only [Bool.and_eq_true] at hp
      exact Or.inr ⟨e2, List.mem_of_find?_eq_some hf, rfl, hp.1⟩
  refine ⟨?_, ?_, ?_, ?_⟩
  · intro e he
    unfold bitmove_to_san
    rw [he]
    simp
  · intro e he hleg
    exact san_ne_nil nd e (hlegnn e he hleg)
  · intro san hempty
    unfold san_to_bitmove
    dsimp only
    rw [hempty]
    rw [if_neg (by decide), if_neg (by decide)]
    have hfind : nd.edges.find? (fun mv => nd.legalMove mv.1 &&
        (toLowerChars (bitmove_to_san nd mv) == ([] : List Char))) = Option.none := by
      rw [List.find?_eq_none]
      intro x hx
      cases hl : nd.legalMove x.1 with
      | false => simp [hl]
      | true =>
        have hne : bitmove_to_san nd x ≠ [] := san_ne_nil nd x (hlegnn x hx hl)
        simp only [hl, Bool.true_and, Bool.not_eq_true, beq_eq_false_iff_ne, ne_eq]
        intro hcon
        exact hne ((List.map_eq_nil_iff).mp hcon)
    rw [hfind]
  · intro san m hok
    unfold san_to_bitmove at hok
    dsimp only at hok
    split at hok
    · rename_i mv heq
      split at heq
      · obtain ⟨e2, hf2, he2⟩ := Option.map_eq_some'.mp heq
        have hp := List.find?_some hf2
        simp only [Bool.and_eq_true] at hp
        have := hlegnn e2 (List.mem_of_find?_eq_some hf2) hp.1
        injection hok with hok2
        rw [← hok2, ← he2]
        exact this
      · split at heq
        · obtain ⟨e2, hf2, he2⟩ := Option.map_eq_some'.mp heq
          have hp := List.find?_some hf2
          simp only [Bool.and_eq_true] at hp
          have := hlegnn e2 (List.mem_of_find?_eq_some hf2) hp.1
          injection hok with hok2
          rw [← hok2, ← he2]
          exact this
        · exact absurd heq (by simp)
    · split at hok
      · rename_i e2 hf2
        have hp := List.find?_some hf2
        simp only [Bool.and_eq_true] at hp
        have := hlegnn e2 (List.mem_of_find?_eq_some hf2) hp.1
        injection hok with hok2
        rw [← hok2]
        exact this
      · exact absurd hok (by simp)

/-- C9 witness: at the fixture position, the null move encodes to the empty
string, the knight move encodes non-empty, and the empty input draws the
no-match error. -/
theorem C9_empty_san_witness :
    bitmove_to_san nodeC5b (nullMove, childC5b) = []
    ∧ bitmove_to_san nodeC5b (mvC5, childC5b) ≠ []
    ∧ san_to_bitmove nodeC5b [] = Except.error (noMatchMsg []) := by
  have hedges : nodeC5b.edges = [(mvC5, childC5b)] := rfl
  have h := C9_empty_san nodeC5b (by
    intro e2 he2 _
    rw [hedges, List.mem_singleton] at he2
    subst he2
    rfl)
  obtain ⟨h1, h2, h3, _⟩ := h
  refine ⟨h1 (nullMove, childC5b) rfl, ?_, h3 [] rfl⟩
  refine h2 (mvC5, childC5b) ?_ rfl
  rw [hedges]
  exact List.mem_singleton.mpr rfl
